import Mathlib

/-!
# Bootloader info store (nRF51/bootloader/bootloader_info.c)

A shallow embedding of the entry store of the mesh bootloader: a page of flash
holding a metadata header followed by a chain of length-prefixed, typed records
that ends in a LAST marker, a redundant bank page, and the operations
`bootloader_info_entry_get`, `bootloader_info_entry_put`, `bootloader_info_reset`
and `bootloader_info_init`.

Memory is one byte-addressed address space (`Mem`); pointers are 32-bit values,
`NULL` is `0`, and pointer arithmetic that the source performs on `uint32_t` is
reduced modulo `2 ^ 32`.  Local arrays (`new_page`, `buffer`) are byte functions
indexed from their first element.
-/

namespace BootloaderInfo

/-! ## Machine model -/

/-- Byte-addressed memory: the byte stored at every address. -/
abbrev Mem := Nat → Nat

/-- Truncation to `uint32_t`. -/
def u32 (x : Nat) : Nat := x % 4294967296

/-- Truncation to `uint16_t`. -/
def u16 (x : Nat) : Nat := x % 65536

/-- Little-endian `uint16_t` load. -/
def read16 (m : Nat → Nat) (a : Nat) : Nat := m a + 256 * m (a + 1)

/-- Little-endian `uint16_t` store into a byte function. -/
def write16 (b : Nat → Nat) (a v : Nat) : Nat → Nat :=
  fun i => if i = a then v % 256 else if i = a + 1 then v / 256 % 256 else b i

/-- The effect of `memset(dst + off, c, n)` on a byte function. -/
def memset (b : Nat → Nat) (off c n : Nat) : Nat → Nat :=
  fun i => if off ≤ i ∧ i < off + n then c else b i

/-- The effect of `memcpy(dst + off, src, n)` on a byte function; `src` is indexed from
the first source byte. -/
def memcpy (b : Nat → Nat) (off : Nat) (src : Nat → Nat) (n : Nat) : Nat → Nat :=
  fun i => if off ≤ i ∧ i < off + n then src (i - off) else b i

/-- Constants that the source takes from headers outside the translated file
(`PAGE_SIZE`, `FLASH_SIZE`, and the two reserved values of `bl_info_type_t`). -/
structure Consts where
  /-- Size of a flash page in bytes. -/
  PAGE_SIZE : Nat
  /-- Size of the flash in bytes; also the address just past its end. -/
  FLASH_SIZE : Nat
  /-- Type tag of a logically deleted record. -/
  BL_INFO_TYPE_INVALID : Nat
  /-- Type tag of the end-of-entries marker. -/
  BL_INFO_TYPE_LAST : Nat

/-- The configuration of the spec's concrete scenario: 1024-byte pages on a 256 kB
device, `INVALID` reachable from every tag by clearing bits, `LAST = 0x7FFF`. -/
def nRF51 : Consts :=
  { PAGE_SIZE := 1024, FLASH_SIZE := 262144, BL_INFO_TYPE_INVALID := 0, BL_INFO_TYPE_LAST := 32767 }

/-- `HEADER_LEN`: size of `bootloader_info_header_t`. -/
def HEADER_LEN : Nat := 4

/-- `WORD_ALIGN(data)`: `data = (((uint32_t) data + 4) & 0xFFFFFFFC)`. -/
def WORD_ALIGN (data : Nat) : Nat := u32 (data + 4) &&& 0xFFFFFFFC

/-- The size in bytes that both `reset_with_replace` and `bootloader_info_entry_put`
compute for a record with `length` payload bytes: `HEADER_LEN + length`, passed through
`WORD_ALIGN` if it is not a multiple of 4. -/
def record_size (length : Nat) : Nat :=
  let len := u32 (HEADER_LEN + length)
  if len &&& 3 ≠ 0 then WORD_ALIGN len else len

/-- `NRF_SUCCESS`. -/
def NRF_SUCCESS : Nat := 0

/-- `NRF_ERROR_INVALID_ADDR`. -/
def NRF_ERROR_INVALID_ADDR : Nat := 16

/-- Ways in which a call does not return: the fatal error handler behind
`APP_ERROR_CHECK`, `bootloader_abort`, or a loop that is still running when the
fuel of the model is used up. -/
inductive Fault where
  | app_error_invalid_addr
  | app_error_internal
  | abort_invalid_persistent_storage
  | out_of_fuel
  deriving DecidableEq, Repr

/-- A call of the flash driver, as the driver receives it. -/
inductive FlashOp where
  | erase (addr size : Nat)
  | store (addr : Nat) (data : List Nat)
  deriving DecidableEq, Repr

/-- The module state: flash and RAM contents, the two file-scope page pointers, and the
calls of the flash driver issued so far, oldest first. -/
structure State where
  /-- Contents of the address space. -/
  mem : Mem
  /-- Flash driver calls issued so far. -/
  log : List FlashOp
  /-- The primary info page. -/
  mp_bl_info_page : Nat
  /-- The bank page. -/
  mp_bl_info_bank_page : Nat

/-- The field `len` of the `bootloader_info_header_t` at `p`. -/
def hdr_len (m : Nat → Nat) (p : Nat) : Nat := read16 m p

/-- The field `type` of the `bootloader_info_header_t` at `p`. -/
def hdr_type (m : Nat → Nat) (p : Nat) : Nat := read16 m (p + 2)

/-- Modelled from the spec: the layout of `bootloader_info_t` (declared in
bootloader_info.h) is missing; the metadata header carries the byte length of the
metadata header itself, here its first byte. -/
def metadata_len (m : Mem) (page : Nat) : Nat := m page

/-- Modelled from the spec: the layout of `bootloader_info_t` (declared in
bootloader_info.h) is missing; the metadata header carries the byte length added to
a header address to obtain the address handed to the caller, here its second byte. -/
def entry_header_length (m : Mem) (page : Nat) : Nat := m (page + 1)

/-- Modelled from the spec: `nrf_flash_erase` (the flash driver is a collaborator
outside the translated file) erases the addressed bytes, setting all their bits. -/
def nrf_flash_erase (s : State) (addr size : Nat) : State :=
  { s with mem := fun a => if addr ≤ a ∧ a < addr + size then 255 else s.mem a,
           log := s.log ++ [FlashOp.erase addr size] }

/-- Modelled from the spec: `nrf_flash_store` (the flash driver is a collaborator
outside the translated file) programs `len` bytes at `addr`, after which the
addressed bytes equal the data. -/
def nrf_flash_store (s : State) (addr : Nat) (data : Nat → Nat) (len : Nat) : State :=
  { s with mem := fun a => if addr ≤ a ∧ a < addr + len then data (a - addr) else s.mem a,
           log := s.log ++ [FlashOp.store addr ((List.range len).map data)] }

/-- Modelled from the spec: `PAGE_ALIGN` (a macro of a header outside the translated
file) yields the start of the page that contains the address. -/
def PAGE_ALIGN (C : Consts) (p : Nat) : Nat := p / C.PAGE_SIZE * C.PAGE_SIZE

/-! ## Static functions -/

/-- The outcome of a call: its result, or the fault that ends execution together with
the state in which it is raised. -/
abbrev Outcome (α : Type) := Except (Fault × State) α

/-- `invalidate_entry`: rewrite the header with its type set to `INVALID`. -/
def invalidate_entry (C : Consts) (s : State) (p_header : Nat) : Outcome State :=
  if p_header &&& 3 ≠ 0 then
    .error (.app_error_invalid_addr, s)
  else
    let old_header_ram : Nat → Nat :=
      write16 (fun i => s.mem (p_header + i)) 2 (u16 C.BL_INFO_TYPE_INVALID)
    .ok (nrf_flash_store s p_header old_header_ram HEADER_LEN)

/-- `bootloader_info_iterate`: the header that follows `p_info_header`. -/
def bootloader_info_iterate (m : Mem) (p_info_header : Nat) : Nat :=
  u32 (p_info_header + hdr_len m p_info_header * 4)

/-- `bootloader_info_header_get`: from the caller-visible entry address back to the
header address. -/
def bootloader_info_header_get (C : Consts) (s : State) (p_entry : Nat) : Nat :=
  if p_entry = 0 ∨ p_entry = C.FLASH_SIZE then 0
  else u32 (p_entry + 4294967296 - entry_header_length s.mem s.mp_bl_info_page)

/-- The `while` loop of `bootloader_info_entry_get`, entered with the cursor
`p_header` and the counter `iterations`; `iter_type` is the type of the header under
the cursor.  Yields the header at which the loop exits, or `none` for the
`return NULL` inside the loop.  The counter bounds the loop, so `PAGE_SIZE / 2 + 1`
units of fuel are never used up. -/
def entry_get_loop (C : Consts) (m : Mem) (p_bl_info_page type : Nat) :
    Nat → Nat → Nat → Option Nat
  | 0, _, _ => none
  | fuel + 1, p_header, iterations =>
    let iter_type := hdr_type m p_header
    if iter_type ≠ type then
      let p_next := bootloader_info_iterate m p_header
      if p_next > u32 (p_bl_info_page + C.PAGE_SIZE) ∨
          (iter_type = C.BL_INFO_TYPE_LAST ∧ iter_type ≠ type) ∨
          iterations + 1 > C.PAGE_SIZE / 2 then
        none
      else
        entry_get_loop C m p_bl_info_page type fuel p_next (iterations + 1)
    else
      some p_header

/-- `bootloader_info_entry_get`: the entry address of the first record of the given
type, or `NULL`. -/
def bootloader_info_entry_get (C : Consts) (s : State) (p_bl_info_page type : Nat) : Nat :=
  match entry_get_loop C s.mem p_bl_info_page type (C.PAGE_SIZE / 2 + 1)
      (u32 (p_bl_info_page + metadata_len s.mem p_bl_info_page)) 0 with
  | some p_header => u32 (p_header + entry_header_length s.mem s.mp_bl_info_page)
  | none => 0

/-- `bootloader_info_first_unused_get`: the header of the LAST marker, or `NULL`. -/
def bootloader_info_first_unused_get (C : Consts) (s : State) (p_bl_info_page : Nat) : Nat :=
  let p_entry := bootloader_info_entry_get C s p_bl_info_page C.BL_INFO_TYPE_LAST
  if p_entry ≠ 0 then bootloader_info_header_get C s p_entry else 0

/-- The locals of `reset_with_replace` that its loop updates. -/
structure ResetLocals where
  /-- Contents of the local array `new_page`. -/
  new_page : Nat → Nat
  /-- The pointer `p_new_page_next_space`, as an index into `new_page`. -/
  next_space : Nat
  /-- The pointer `p_replace_position` (`0` is `NULL`). -/
  p_replace_position : Nat
  /-- Not a variable of the source: the values that `p_info` had whenever the loop read
  the header under it, oldest first. -/
  visited : List Nat

/-- The `while` loop of `reset_with_replace`, entered with the cursor `p_info`;
`new_page_addr` is the address of the local array `new_page`. -/
def reset_loop (C : Consts) (m : Mem) (page new_page_addr replace_type p_entry entry_length : Nat) :
    Nat → Nat → ResetLocals → Except Fault ResetLocals
  | 0, _, _ => .error .out_of_fuel
  | fuel + 1, p_info, st =>
    if p_info < u32 (page + C.PAGE_SIZE) then
      let st := { st with visited := st.visited ++ [p_info] }
      let type := hdr_type m p_info
      if type = C.BL_INFO_TYPE_LAST then
        .ok st
      else if type ≠ C.BL_INFO_TYPE_INVALID then
        if type = replace_type then
          let len := record_size entry_length
          if st.next_space + len > C.PAGE_SIZE then
            .error .app_error_internal
          else
            let b1 := write16 st.new_page st.next_space (u16 (len / 4))
            let b2 := write16 b1 (st.next_space + 2) (u16 type)
            let b3 := memset b2 (st.next_space + len - 3) 255 3
            let b4 := memcpy b3 (st.next_space + HEADER_LEN) (fun i => m (p_entry + i)) entry_length
            reset_loop C m page new_page_addr replace_type p_entry entry_length fuel
              (bootloader_info_iterate m p_info)
              { st with new_page := b4, next_space := st.next_space + len,
                        p_replace_position := new_page_addr + st.next_space }
        else
          let len := hdr_len m p_info * 4
          if st.next_space + len > C.PAGE_SIZE then
            .error .app_error_internal
          else
            reset_loop C m page new_page_addr replace_type p_entry entry_length fuel
              (bootloader_info_iterate m p_info)
              { st with new_page := memcpy st.new_page st.next_space (fun i => m (p_info + i)) len,
                        next_space := st.next_space + len }
      else
        reset_loop C m page new_page_addr replace_type p_entry entry_length fuel
          (bootloader_info_iterate m p_info) st
    else
      .ok st

/-- The image that `reset_with_replace` has in `new_page` when it starts to write
flash: the loop's result with the LAST marker added if room remains. -/
def reset_image (C : Consts) (st : ResetLocals) : Nat → Nat :=
  if st.next_space < C.PAGE_SIZE then
    write16 st.new_page (st.next_space + 2) (u16 C.BL_INFO_TYPE_LAST)
  else st.new_page

/-- `reset_with_replace`: rebuild the page from its valid entries, replacing the entry
of type `replace_type`; returns `p_replace_position`.  `fuel` bounds the iterations
of the loop, which has no bound of its own. -/
def reset_with_replace (C : Consts) (fuel new_page_addr : Nat) (s : State)
    (replace_type p_entry entry_length : Nat) : Outcome (State × Nat) :=
  let page := s.mp_bl_info_page
  let bank := s.mp_bl_info_bank_page
  let ml := metadata_len s.mem page
  let st0 : ResetLocals :=
    { new_page := memcpy (memset (fun _ => 0) 0 255 C.PAGE_SIZE) 0 (fun i => s.mem (page + i)) ml,
      next_space := ml, p_replace_position := 0, visited := [] }
  match reset_loop C s.mem page new_page_addr replace_type p_entry entry_length fuel
      (u32 (page + ml)) st0 with
  | .error e => .error (e, s)
  | .ok st =>
    let image := reset_image C st
    let s1 := nrf_flash_erase s bank C.PAGE_SIZE
    let s2 := nrf_flash_store s1 bank image C.PAGE_SIZE
    let s3 := nrf_flash_erase s2 page C.PAGE_SIZE
    let s4 := nrf_flash_store s3 page image C.PAGE_SIZE
    .ok (s4, st.p_replace_position)

/-! ## Interface functions -/

/-- `bootloader_info_init`: returns the error code together with the new state. -/
def bootloader_info_init (C : Consts) (s : State) (p_bl_info_page p_bl_info_bank_page : Nat) :
    Outcome (State × Nat) :=
  if p_bl_info_page &&& (C.PAGE_SIZE - 1) ≠ 0 ∨ p_bl_info_bank_page &&& (C.PAGE_SIZE - 1) ≠ 0 then
    .ok (s, NRF_ERROR_INVALID_ADDR)
  else
    let s1 : State :=
      { s with mp_bl_info_page := p_bl_info_page, mp_bl_info_bank_page := p_bl_info_bank_page }
    if bootloader_info_first_unused_get C s1 s1.mp_bl_info_page = 0 then
      if bootloader_info_first_unused_get C s1 s1.mp_bl_info_bank_page = 0 then
        .error (.abort_invalid_persistent_storage, s1)
      else
        let s2 := nrf_flash_erase s1 s1.mp_bl_info_page C.PAGE_SIZE
        let s3 := nrf_flash_store s2 s1.mp_bl_info_page
          (fun i => s2.mem (s1.mp_bl_info_bank_page + i)) C.PAGE_SIZE
        .ok (s3, NRF_SUCCESS)
    else
      .ok (s1, NRF_SUCCESS)

/-- `bootloader_info_entry_put`: returns the entry address together with the new
state.  `buffer0` is the indeterminate initial content of the local array `buffer`,
`new_page_addr` the address of the local array of `reset_with_replace`. -/
def bootloader_info_entry_put (C : Consts) (fuel new_page_addr : Nat) (buffer0 : Nat → Nat)
    (s : State) (type p_entry length : Nat) : Outcome (State × Nat) :=
  if PAGE_ALIGN C p_entry = s.mp_bl_info_page then
    .ok (s, 0)
  else
    let p_old_header := bootloader_info_header_get C s
      (bootloader_info_entry_get C s s.mp_bl_info_page type)
    let p_new_header := bootloader_info_first_unused_get C s s.mp_bl_info_page
    if p_new_header = 0 ∨
        u32 (p_new_header + HEADER_LEN + length + 4) ≥ u32 (s.mp_bl_info_page + C.PAGE_SIZE) then
      match reset_with_replace C fuel new_page_addr s type p_entry length with
      | .error e => .error e
      | .ok (s', p_new) =>
        .ok (s', u32 (p_new + entry_header_length s'.mem s'.mp_bl_info_page))
    else
      if p_new_header &&& 3 ≠ 0 then
        .error (.app_error_invalid_addr, s)
      else
        let entry_length := record_size length
        let b1 := memset buffer0 (entry_length - 4) 255 8
        let b2 := write16 b1 2 (u16 type)
        let b3 := write16 b2 0 (u16 (u32 (length + HEADER_LEN) / 4))
        let b4 := memcpy b3 HEADER_LEN (fun i => s.mem (p_entry + i)) length
        let b5 := write16 b4 (entry_length + 2) (u16 C.BL_INFO_TYPE_LAST)
        let s1 := nrf_flash_store s p_new_header b5 (entry_length + 4)
        if p_old_header ≠ 0 then
          match invalidate_entry C s1 p_old_header with
          | .error e => .error e
          | .ok s2 =>
            .ok (s2, u32 (p_new_header + entry_header_length s2.mem s2.mp_bl_info_page))
        else
          .ok (s1, u32 (p_new_header + entry_header_length s1.mem s1.mp_bl_info_page))

/-- `bootloader_info_reset`: `reset_with_replace(BL_INFO_TYPE_INVALID, NULL, 0)`, its
result discarded. -/
def bootloader_info_reset (C : Consts) (fuel new_page_addr : Nat) (s : State) : Outcome State :=
  match reset_with_replace C fuel new_page_addr s C.BL_INFO_TYPE_INVALID 0 0 with
  | .error e => .error e
  | .ok (s', _) => .ok s'

/-- The loop of `bootloader_info_entry_get` once more, yielding in addition the addresses
of the headers it reads, oldest first: the header under the cursor is read whenever the
loop condition is evaluated, and the cursor advances once for every header whose type is
not the requested one.  `none` when the fuel is used up. -/
def entry_get_reads (C : Consts) (m : Mem) (p_bl_info_page type : Nat) :
    Nat → Nat → Nat → Option (List Nat × Option Nat)
  | 0, _, _ => none
  | fuel + 1, p_header, iterations =>
    let iter_type := hdr_type m p_header
    if iter_type ≠ type then
      let p_next := bootloader_info_iterate m p_header
      if p_next > u32 (p_bl_info_page + C.PAGE_SIZE) ∨
          (iter_type = C.BL_INFO_TYPE_LAST ∧ iter_type ≠ type) ∨
          iterations + 1 > C.PAGE_SIZE / 2 then
        some ([p_header], none)
      else
        (entry_get_reads C m p_bl_info_page type fuel p_next (iterations + 1)).map
          (fun r => (p_header :: r.1, r.2))
    else
      some ([p_header], some p_header)

/-! ## Well-formed pages -/

/-- Requirements on the constants: pages are a power of two in size, hold the metadata
header, and their word count fits the 16-bit length field; the reserved tags are distinct
16-bit values. -/
structure Consts.Valid (C : Consts) : Prop where
  page_pow : ∃ k, C.PAGE_SIZE = 2 ^ k
  page_ge : 256 ≤ C.PAGE_SIZE
  page_le : C.PAGE_SIZE ≤ 65536
  invalid_lt : C.BL_INFO_TYPE_INVALID < 65536
  last_lt : C.BL_INFO_TYPE_LAST < 65536
  invalid_ne_last : C.BL_INFO_TYPE_INVALID ≠ C.BL_INFO_TYPE_LAST

/-- The bytes of a page, indexed from its first byte. -/
def view (m : Mem) (page : Nat) : Nat → Nat := fun i => m (page + i)

/-- The bytes `b` hold, from index `o` up to index `q`, a chain of records whose headers
carry the listed (type, length in words) pairs: every record is at least one word long,
none is a LAST marker, and each starts where its predecessor ends. -/
def ChainTo (C : Consts) (b : Nat → Nat) : List (Nat × Nat) → Nat → Nat → Prop
  | [], o, q => o = q
  | r :: rs, o, q =>
    hdr_type b o = r.1 ∧ hdr_len b o = r.2 ∧ 1 ≤ r.2 ∧ r.1 ≠ C.BL_INFO_TYPE_LAST ∧
      r.1 < 65536 ∧ ChainTo C b rs (o + 4 * r.2) q

/-- Total size in bytes of a chain of records. -/
def chain_bytes : List (Nat × Nat) → Nat
  | [] => 0
  | r :: rs => 4 * r.2 + chain_bytes rs

/-- A well-formed primary page: the page does not wrap around the address space, the
metadata length is word aligned and covers the metadata fields, the entry-header length
is the size of a header, and the records `rs` form a chain from the end of the metadata
to a LAST marker at offset `F` that lies inside the page. -/
structure WellFormed (C : Consts) (s : State) (rs : List (Nat × Nat)) (F : Nat) : Prop where
  no_wrap : s.mp_bl_info_page + C.PAGE_SIZE < 4294967296
  ml_aligned : metadata_len s.mem s.mp_bl_info_page % 4 = 0
  ml_ge : 4 ≤ metadata_len s.mem s.mp_bl_info_page
  ehl : entry_header_length s.mem s.mp_bl_info_page = HEADER_LEN
  chain : ChainTo C (view s.mem s.mp_bl_info_page) rs (metadata_len s.mem s.mp_bl_info_page) F
  last : hdr_type (view s.mem s.mp_bl_info_page) F = C.BL_INFO_TYPE_LAST
  inside : F + 4 ≤ C.PAGE_SIZE

/-- The records that a compaction keeps, in order: invalidated records are dropped, a
record of the replaced type gets the length of the new record, all others are kept. -/
def kept (C : Consts) (replace_type entry_length : Nat) : List (Nat × Nat) → List (Nat × Nat)
  | [] => []
  | r :: rs =>
    if r.1 = C.BL_INFO_TYPE_INVALID then kept C replace_type entry_length rs
    else if r.1 = replace_type then
      (r.1, record_size entry_length / 4) :: kept C replace_type entry_length rs
    else r :: kept C replace_type entry_length rs

/-- The offsets of the headers of a chain that starts at offset `o`, followed by the
offset at which the chain ends. -/
def chain_offsets : List (Nat × Nat) → Nat → List Nat
  | [], o => [o]
  | r :: rs, o => o :: chain_offsets rs (o + 4 * r.2)

/-- The state after the four flash driver calls that end `reset_with_replace`: the bank
page and then the primary page erased and programmed with `image`. -/
def compacted (C : Consts) (s : State) (image : Nat → Nat) : State :=
  nrf_flash_store
    (nrf_flash_erase
      (nrf_flash_store (nrf_flash_erase s s.mp_bl_info_bank_page C.PAGE_SIZE)
        s.mp_bl_info_bank_page image C.PAGE_SIZE)
      s.mp_bl_info_page C.PAGE_SIZE)
    s.mp_bl_info_page image C.PAGE_SIZE

/-- The locals of `reset_with_replace` when its loop is entered: `new_page` filled with
0xFF and the metadata header copied to its start. -/
def reset_locals_init (C : Consts) (s : State) : ResetLocals :=
  { new_page := memcpy (memset (fun _ => 0) 0 255 C.PAGE_SIZE) 0
      (fun i => s.mem (s.mp_bl_info_page + i)) (metadata_len s.mem s.mp_bl_info_page),
    next_space := metadata_len s.mem s.mp_bl_info_page, p_replace_position := 0,
    visited := [] }

/-- The offset of the first record of the given type in a chain that starts at offset `o`. -/
def find_record (type : Nat) : List (Nat × Nat) → Nat → Option Nat
  | [], _ => none
  | r :: rs, o => if r.1 = type then some o else find_record type rs (o + 4 * r.2)

/-- Memory `m` with the bytes `bs` placed at address `a`. -/
def load (m : Mem) (a : Nat) (bs : List Nat) : Mem :=
  fun x => if a ≤ x ∧ x < a + bs.length then bs.getD (x - a) 0 else m x

/-- Address of the primary page in the examples (0x3F800). -/
def demo_page : Nat := 260096

/-- Address of the bank page in the examples (0x3F400). -/
def demo_bank : Nat := 259072

/-- Address of payload bytes in RAM in the examples (0x20000000). -/
def demo_ram : Nat := 536870912

/-- Address of the local array `new_page` in the examples (0x20002000). -/
def demo_stack : Nat := 536879104

/-- Erased flash with the payload bytes 11 22 33 44 01 00 AA BB CC DD EE in RAM. -/
def demo_erased : Mem :=
  load (fun _ => 255) demo_ram [17, 34, 51, 68, 1, 0, 170, 187, 204, 221, 238]

/-- A state over the given memory with the example page addresses and no flash driver
call issued yet. -/
def demo_state (m : Mem) : State :=
  { mem := m, log := [], mp_bl_info_page := demo_page, mp_bl_info_bank_page := demo_bank }

/-- An empty store: 8 bytes of metadata (metadata length 8, entry-header length 4) and
the LAST marker at offset 8. -/
def demo_empty : State :=
  demo_state (load demo_erased demo_page [8, 4, 16, 16, 255, 255, 255, 255, 255, 255, 255, 127])

/-- A store without room: a record of type 1 with 4 payload bytes at offset 8, a record of
type 2 of 250 words at offset 16, and the LAST marker at offset 1016. -/
def demo_full : State :=
  demo_state (load (load demo_erased demo_page
    [8, 4, 16, 16, 255, 255, 255, 255, 2, 0, 1, 0, 9, 9, 9, 9, 250, 0, 2, 0])
    (demo_page + 1016) [255, 255, 255, 127])

/-- A store without room that holds no record of type 1: a record of type 2 of 252 words
at offset 8 and the LAST marker at offset 1016. -/
def demo_full_other : State :=
  demo_state (load (load demo_erased demo_page
    [8, 4, 16, 16, 255, 255, 255, 255, 252, 0, 2, 0])
    (demo_page + 1016) [255, 255, 255, 127])

/-- A store whose only record ends exactly at the end of the page: a record of type 2
of 254 words at offset 8, and no LAST marker. -/
def demo_edge : State :=
  demo_state (load demo_erased demo_page [8, 4, 16, 16, 255, 255, 255, 255, 254, 0, 2, 0])

/-- The fault of a call that does not return. -/
def fault_of {α : Type} (r : Outcome α) : Option Fault :=
  match r with
  | .ok _ => none
  | .error e => some e.1

/-- What a caller can observe of a call that returns: the returned value together with
an observation of the state the call leaves. -/
def observe {α : Type} (r : Outcome (State × Nat)) (f : State → α) : Option (Nat × α) :=
  match r with
  | .ok (s, a) => some (a, f s)
  | .error _ => none

/-- The state that a call leaves: the state it returns, or the state in which it raises
its fault. -/
def state_of (r : Outcome (State × Nat)) : State :=
  match r with
  | .ok x => x.1
  | .error e => e.2

/-- The value that a call returns, `0` if it does not return. -/
def value_of (r : Outcome (State × Nat)) : Nat :=
  match r with
  | .ok x => x.2
  | .error _ => 0

theorem and_three (x : Nat) : x &&& 3 = x % 4 :=
  Nat.and_pow_two_sub_one_eq_mod x 2

theorem and_word_mask (x : Nat) (h : x < 4294967296) : x &&& 0xFFFFFFFC = x / 4 * 4 := by
  have hM : (0xFFFFFFFC : Nat) = (2 ^ 30 - 1) <<< 2 := by decide
  have hx : x / 4 * 4 = (x >>> 2) <<< 2 := by
    rw [Nat.shiftLeft_eq, Nat.shiftRight_eq_div_pow]
  rw [hx, hM]
  apply Nat.eq_of_testBit_eq
  intro i
  rw [Nat.testBit_and, Nat.testBit_shiftLeft, Nat.testBit_shiftLeft, Nat.testBit_shiftRight,
    Nat.testBit_two_pow_sub_one]
  by_cases h2 : 2 ≤ i
  · have e : 2 + (i - 2) = i := by omega
    rw [e]
    by_cases h30 : i - 2 < 30
    · simp [h2, h30]
    · have hbit : x.testBit i = false := by
        apply Nat.testBit_lt_two_pow
        calc x < 2 ^ 32 := h
          _ ≤ 2 ^ i := Nat.pow_le_pow_right (by norm_num) (by omega)
      simp [hbit]
  · simp [h2]

theorem and_page_mask (C : Consts) (hC : C.Valid) (x : Nat) :
    x &&& (C.PAGE_SIZE - 1) ≠ 0 ↔ ¬ C.PAGE_SIZE ∣ x := by
  obtain ⟨k, hk⟩ := hC.page_pow
  rw [hk, Nat.and_pow_two_sub_one_eq_mod, Nat.dvd_iff_mod_eq_zero]

/-- Without 32-bit overflow the size computed for a record is `HEADER_LEN + length`
rounded up to a multiple of 4. -/
theorem record_size_eq (L : Nat) (hL : L + 8 ≤ 4294967296) :
    record_size L = (L + 7) / 4 * 4 := by
  unfold record_size WORD_ALIGN u32 HEADER_LEN
  have h1 : (4 + L) % 4294967296 = 4 + L := Nat.mod_eq_of_lt (by omega)
  simp only [h1, and_three]
  split
  · have h2 : (4 + L + 4) % 4294967296 = 4 + L + 4 ∨ 4 + L + 4 = 4294967296 := by omega
    rcases h2 with h2 | h2
    · rw [h2, and_word_mask _ (by omega)]; omega
    · omega
  · omega

theorem record_size_bounds (L : Nat) (hL : L + 8 ≤ 4294967296) :
    record_size L % 4 = 0 ∧ 4 + L ≤ record_size L ∧ record_size L < 4 + L + 4 := by
  rw [record_size_eq L hL]; omega

/-! ## Reading headers -/

theorem hdr_type_view (m : Mem) (page o : Nat) :
    hdr_type (view m page) o = hdr_type m (page + o) := by
  simp [hdr_type, read16, view, Nat.add_assoc]

theorem hdr_len_view (m : Mem) (page o : Nat) :
    hdr_len (view m page) o = hdr_len m (page + o) := by
  simp [hdr_len, read16, view, Nat.add_assoc]

theorem hdr_type_congr (b b' : Nat → Nat) (o : Nat)
    (h : ∀ i, o ≤ i → i < o + 4 → b' i = b i) : hdr_type b' o = hdr_type b o := by
  simp only [hdr_type, read16]
  rw [h (o + 2) (by omega) (by omega), h (o + 2 + 1) (by omega) (by omega)]

theorem hdr_len_congr (b b' : Nat → Nat) (o : Nat)
    (h : ∀ i, o ≤ i → i < o + 4 → b' i = b i) : hdr_len b' o = hdr_len b o := by
  simp only [hdr_len, read16]
  rw [h o (by omega) (by omega), h (o + 1) (by omega) (by omega)]

theorem read16_write16 (b : Nat → Nat) (a v : Nat) (hv : v < 65536) :
    read16 (write16 b a v) a = v := by
  simp [read16, write16]; omega

/-! ## Chains of records -/

theorem ChainTo.end_eq {C : Consts} {b : Nat → Nat} :
    ∀ {rs : List (Nat × Nat)} {o q : Nat}, ChainTo C b rs o q → q = o + chain_bytes rs
  | [], o, q, h => by simpa [ChainTo, chain_bytes] using h.symm
  | r :: rs, o, q, h => by
    have := ChainTo.end_eq h.2.2.2.2.2
    simp only [chain_bytes]; omega

theorem ChainTo.length_le {C : Consts} {b : Nat → Nat} :
    ∀ {rs : List (Nat × Nat)} {o q : Nat}, ChainTo C b rs o q → 4 * rs.length ≤ chain_bytes rs
  | [], _, _, _ => by simp [chain_bytes]
  | r :: rs, o, q, h => by
    have := ChainTo.length_le h.2.2.2.2.2
    have := h.2.2.1
    simp only [chain_bytes, List.length_cons]; omega

/-- A chain depends only on the bytes between its start and its end. -/
theorem ChainTo.congr {C : Consts} {b b' : Nat → Nat} :
    ∀ {rs : List (Nat × Nat)} {o q : Nat}, (∀ i, o ≤ i → i < q → b' i = b i) →
      ChainTo C b rs o q → ChainTo C b' rs o q
  | [], _, _, _, h => h
  | r :: rs, o, q, hb, h => by
    have hq := ChainTo.end_eq h.2.2.2.2.2
    have hl := h.2.2.1
    refine ⟨?_, ?_, h.2.2.1, h.2.2.2.1, h.2.2.2.2.1, ?_⟩
    · rw [hdr_type_congr b b' o (fun i h1 h2 => hb i h1 (by omega))]; exact h.1
    · rw [hdr_len_congr b b' o (fun i h1 h2 => hb i h1 (by omega))]; exact h.2.1
    · exact ChainTo.congr (fun i h1 h2 => hb i (by omega) h2) h.2.2.2.2.2

theorem ChainTo.type_ne_last {C : Consts} {b : Nat → Nat} :
    ∀ {rs : List (Nat × Nat)} {o q : Nat}, ChainTo C b rs o q →
      ∀ r ∈ rs, r.1 ≠ C.BL_INFO_TYPE_LAST
  | [], _, _, _, r, hr => by simp at hr
  | r0 :: rs, o, q, h, r, hr => by
    rcases List.mem_cons.mp hr with e | e
    · rw [e]; exact h.2.2.2.1
    · exact ChainTo.type_ne_last h.2.2.2.2.2 r e

theorem find_record_last_none {C : Consts} {b : Nat → Nat} {rs : List (Nat × Nat)} {o q : Nat}
    (h : ChainTo C b rs o q) : ∀ o', find_record C.BL_INFO_TYPE_LAST rs o' = none := by
  have hne := ChainTo.type_ne_last h
  clear h
  induction rs with
  | nil => intro o'; rfl
  | cons r rs ih =>
    intro o'
    simp only [find_record]
    rw [if_neg (hne r (List.mem_cons_self _ _))]
    exact ih (fun r' hr' => hne r' (List.mem_cons_of_mem _ hr')) _

/-! ## The scanner on a chain -/

/-- On a chain that ends in a LAST marker inside the page the scan returns the first
record of the requested type; a scan for LAST returns the marker; any other scan that
finds no record returns `NULL`. -/
theorem entry_get_loop_chain (C : Consts) (m : Mem) (page type F : Nat)
    (hw : page + C.PAGE_SIZE < 4294967296) (hF : F + 4 ≤ C.PAGE_SIZE)
    (hlast : hdr_type (view m page) F = C.BL_INFO_TYPE_LAST) :
    ∀ (rs : List (Nat × Nat)) (o fuel it : Nat), ChainTo C (view m page) rs o F →
      rs.length < fuel → it + rs.length ≤ C.PAGE_SIZE / 2 →
      entry_get_loop C m page type fuel (page + o) it =
        match find_record type rs o with
        | some x => some (page + x)
        | none => if type = C.BL_INFO_TYPE_LAST then some (page + F) else none := by
  intro rs
  induction rs with
  | nil =>
    intro o fuel it hch hfuel _
    obtain ⟨f, rfl⟩ : ∃ f, fuel = f + 1 := ⟨fuel - 1, by omega⟩
    have ho : o = F := hch
    subst ho
    rw [hdr_type_view] at hlast
    simp only [entry_get_loop, find_record, hlast]
    by_cases ht : C.BL_INFO_TYPE_LAST = type
    · simp [ht]
    · have ht' : ¬ type = C.BL_INFO_TYPE_LAST := fun e => ht e.symm
      simp [ht, ht']
  | cons r rs ih =>
    intro o fuel it hch hfuel hit
    obtain ⟨f, rfl⟩ : ∃ f, fuel = f + 1 := ⟨fuel - 1, by omega⟩
    obtain ⟨h1, h2, h3, h4, _, h6⟩ := hch
    rw [hdr_type_view] at h1
    rw [hdr_len_view] at h2
    have hend := ChainTo.end_eq h6
    simp only [List.length_cons] at hfuel hit
    have hnext : bootloader_info_iterate m (page + o) = page + (o + 4 * r.2) := by
      unfold bootloader_info_iterate u32
      rw [h2, Nat.mod_eq_of_lt (by omega)]; omega
    have hpg : u32 (page + C.PAGE_SIZE) = page + C.PAGE_SIZE := Nat.mod_eq_of_lt hw
    simp only [entry_get_loop, find_record, h1, hnext, hpg]
    by_cases ht : r.1 = type
    · simp [ht]
    · have hcond : ¬ (page + (o + 4 * r.2) > page + C.PAGE_SIZE ∨
          (r.1 = C.BL_INFO_TYPE_LAST ∧ r.1 ≠ type) ∨ it + 1 > C.PAGE_SIZE / 2) := by
        intro hc
        rcases hc with hc | hc | hc
        · omega
        · exact h4 hc.1
        · omega
      rw [if_pos ht, if_neg hcond, if_neg ht]
      exact ih (o + 4 * r.2) f (it + 1) h6 (by omega) (by omega)


theorem reset_loop_last (C : Consts) (m : Mem) (page npa rt pe L f p : Nat) (st : ResetLocals)
    (hp : p < u32 (page + C.PAGE_SIZE)) (ht : hdr_type m p = C.BL_INFO_TYPE_LAST) :
    reset_loop C m page npa rt pe L (f + 1) p st =
      .ok { st with visited := st.visited ++ [p] } := by
  rw [reset_loop]; dsimp only; rw [if_pos hp, if_pos ht]

theorem reset_loop_skip (C : Consts) (m : Mem) (page npa rt pe L f p : Nat) (st : ResetLocals)
    (hp : p < u32 (page + C.PAGE_SIZE)) (ht : hdr_type m p ≠ C.BL_INFO_TYPE_LAST)
    (hi : hdr_type m p = C.BL_INFO_TYPE_INVALID) :
    reset_loop C m page npa rt pe L (f + 1) p st =
      reset_loop C m page npa rt pe L f (bootloader_info_iterate m p)
        { st with visited := st.visited ++ [p] } := by
  rw [reset_loop]; dsimp only; rw [if_pos hp, if_neg ht, if_neg (not_not.mpr hi)]

theorem reset_loop_replace (C : Consts) (m : Mem) (page npa rt pe L f p : Nat) (st : ResetLocals)
    (hp : p < u32 (page + C.PAGE_SIZE)) (ht : hdr_type m p ≠ C.BL_INFO_TYPE_LAST)
    (hi : hdr_type m p ≠ C.BL_INFO_TYPE_INVALID) (hr : hdr_type m p = rt) :
    reset_loop C m page npa rt pe L (f + 1) p st =
      if st.next_space + record_size L > C.PAGE_SIZE then .error .app_error_internal
      else reset_loop C m page npa rt pe L f (bootloader_info_iterate m p)
        { new_page := memcpy (memset (write16 (write16 st.new_page st.next_space
              (u16 (record_size L / 4))) (st.next_space + 2) (u16 (hdr_type m p)))
              (st.next_space + record_size L - 3) 255 3)
              (st.next_space + HEADER_LEN) (fun i => m (pe + i)) L,
          next_space := st.next_space + record_size L,
          p_replace_position := npa + st.next_space,
          visited := st.visited ++ [p] } := by
  rw [reset_loop]; dsimp only; rw [if_pos hp, if_neg ht, if_pos hi, if_pos hr]

theorem reset_loop_copy (C : Consts) (m : Mem) (page npa rt pe L f p : Nat) (st : ResetLocals)
    (hp : p < u32 (page + C.PAGE_SIZE)) (ht : hdr_type m p ≠ C.BL_INFO_TYPE_LAST)
    (hi : hdr_type m p ≠ C.BL_INFO_TYPE_INVALID) (hr : hdr_type m p ≠ rt) :
    reset_loop C m page npa rt pe L (f + 1) p st =
      if st.next_space + hdr_len m p * 4 > C.PAGE_SIZE then .error .app_error_internal
      else reset_loop C m page npa rt pe L f (bootloader_info_iterate m p)
        { st with
          new_page := memcpy st.new_page st.next_space (fun i => m (p + i)) (hdr_len m p * 4),
          next_space := st.next_space + hdr_len m p * 4,
          visited := st.visited ++ [p] } := by
  rw [reset_loop]; dsimp only; rw [if_pos hp, if_neg ht, if_pos hi, if_neg hr]

theorem read16_write16_lo (b : Nat → Nat) (a v w : Nat) (hv : v < 65536) :
    read16 (write16 (write16 b a v) (a + 2) w) a = v := by
  have h : ¬ a = a + 2 + 1 := by omega
  simp [read16, write16, h]
  omega

theorem read16_write16_hi (b : Nat → Nat) (a w : Nat) (hw : w < 65536) :
    read16 (write16 b (a + 2) w) (a + 2) = w := by
  simp [read16, write16]
  omega

theorem u16_of_lt {x : Nat} (h : x < 65536) : u16 x = x := Nat.mod_eq_of_lt h

/-- The header that `reset_with_replace` writes for the replaced record can be read back,
provided the record has a payload. -/
theorem replaced_header (b src : Nat → Nat) (ns len L v1 v2 : Nat) (hlen : 8 ≤ len)
    (h1 : v1 < 65536) (h2 : v2 < 65536) :
    hdr_len (memcpy (memset (write16 (write16 b ns v1) (ns + 2) v2) (ns + len - 3) 255 3)
      (ns + HEADER_LEN) src L) ns = v1 ∧
    hdr_type (memcpy (memset (write16 (write16 b ns v1) (ns + 2) v2) (ns + len - 3) 255 3)
      (ns + HEADER_LEN) src L) ns = v2 := by
  have hfr : ∀ i, ns ≤ i → i < ns + 4 →
      memcpy (memset (write16 (write16 b ns v1) (ns + 2) v2) (ns + len - 3) 255 3)
        (ns + HEADER_LEN) src L i = write16 (write16 b ns v1) (ns + 2) v2 i := by
    intro i h1 h2
    simp only [memcpy, memset, HEADER_LEN]
    rw [if_neg (by omega), if_neg (by omega)]
  constructor
  · rw [hdr_len_congr _ _ ns hfr]
    exact read16_write16_lo b ns v1 v2 h1
  · rw [hdr_type_congr _ _ ns hfr]
    exact read16_write16_hi _ ns v2 h2


/-- The compaction loop on a chain: it ends in the fatal error exactly when the kept
records do not fit behind `next_space`; otherwise it stops at the LAST marker, having
read the headers of the chain in order, appends the kept records as a chain and touches
nothing else of `new_page`. -/
theorem reset_loop_chain (C : Consts) (hC : C.Valid) (m : Mem)
    (page npa rt pe L F : Nat) (hL : L + 8 ≤ 4294967296)
    (hw : page + C.PAGE_SIZE < 4294967296) (hF : F + 4 ≤ C.PAGE_SIZE)
    (hlast : hdr_type (view m page) F = C.BL_INFO_TYPE_LAST) :
    ∀ (rs : List (Nat × Nat)) (o fuel : Nat) (st : ResetLocals),
      ChainTo C (view m page) rs o F → rs.length < fuel → st.next_space ≤ C.PAGE_SIZE →
      if st.next_space + chain_bytes (kept C rt L rs) ≤ C.PAGE_SIZE then
        ∃ st', reset_loop C m page npa rt pe L fuel (page + o) st = .ok st' ∧
          st'.next_space = st.next_space + chain_bytes (kept C rt L rs) ∧
          (∀ i, i < st.next_space → st'.new_page i = st.new_page i) ∧
          (∀ i, st'.next_space ≤ i → st'.new_page i = st.new_page i) ∧
          ((1 ≤ L ∨ ∀ r ∈ rs, r.1 ≠ C.BL_INFO_TYPE_INVALID → r.1 ≠ rt) →
            ChainTo C st'.new_page (kept C rt L rs) st.next_space st'.next_space) ∧
          st'.visited = st.visited ++ (chain_offsets rs o).map (fun x => page + x)
      else
        reset_loop C m page npa rt pe L fuel (page + o) st = .error .app_error_internal := by
  have hpg : u32 (page + C.PAGE_SIZE) = page + C.PAGE_SIZE := Nat.mod_eq_of_lt hw
  intro rs
  induction rs with
  | nil =>
    intro o fuel st hch hfuel hns
    obtain ⟨f, rfl⟩ : ∃ f, fuel = f + 1 := ⟨fuel - 1, by omega⟩
    have ho : o = F := hch
    subst ho
    rw [hdr_type_view] at hlast
    have hlt : page + o < u32 (page + C.PAGE_SIZE) := by rw [hpg]; omega
    simp only [kept, chain_bytes, Nat.add_zero]
    rw [if_pos hns]
    exact ⟨_, reset_loop_last C m page npa rt pe L f _ st hlt hlast, rfl,
      fun _ _ => rfl, fun _ _ => rfl, fun _ => rfl, rfl⟩
  | cons r rs ih =>
    intro o fuel st hch hfuel hns
    obtain ⟨f, rfl⟩ : ∃ f, fuel = f + 1 := ⟨fuel - 1, by omega⟩
    obtain ⟨h1, h2, h3, h4, h5, h6⟩ := hch
    rw [hdr_type_view] at h1
    rw [hdr_len_view] at h2
    have hend := ChainTo.end_eq h6
    simp only [List.length_cons] at hfuel
    have hnext : bootloader_info_iterate m (page + o) = page + (o + 4 * r.2) := by
      unfold bootloader_info_iterate u32
      rw [h2, Nat.mod_eq_of_lt (by omega)]; omega
    have hlt : page + o < u32 (page + C.PAGE_SIZE) := by rw [hpg]; omega
    have ht : hdr_type m (page + o) ≠ C.BL_INFO_TYPE_LAST := by rw [h1]; exact h4
    have hLr' : (1 ≤ L ∨ ∀ r' ∈ r :: rs, r'.1 ≠ C.BL_INFO_TYPE_INVALID → r'.1 ≠ rt) →
        (1 ≤ L ∨ ∀ r' ∈ rs, r'.1 ≠ C.BL_INFO_TYPE_INVALID → r'.1 ≠ rt) := by
      intro hLr
      rcases hLr with h | h
      · exact Or.inl h
      · exact Or.inr (fun r' hr' => h r' (List.mem_cons_of_mem _ hr'))
    have hvis : ∀ (v : List Nat), v ++ [page + o] ++
        (chain_offsets rs (o + 4 * r.2)).map (fun x => page + x) =
        v ++ (chain_offsets (r :: rs) o).map (fun x => page + x) := by
      intro v
      simp [chain_offsets]
    by_cases hinv : r.1 = C.BL_INFO_TYPE_INVALID
    · -- an invalidated record is skipped
      rw [reset_loop_skip C m page npa rt pe L f _ st hlt ht (by rw [h1]; exact hinv), hnext]
      simp only [kept, if_pos hinv]
      have hih := ih (o + 4 * r.2) f { st with visited := st.visited ++ [page + o] }
        h6 (by omega) hns
      by_cases htot : st.next_space + chain_bytes (kept C rt L rs) ≤ C.PAGE_SIZE
      · rw [if_pos htot] at hih ⊢
        obtain ⟨st', e1, e2, e3, e4, e5, e6⟩ := hih
        exact ⟨st', e1, e2, e3, e4, fun hLr => e5 (hLr' hLr), e6.trans (hvis _)⟩
      · rw [if_neg htot] at hih ⊢
        exact hih
    · have hi : hdr_type m (page + o) ≠ C.BL_INFO_TYPE_INVALID := by rw [h1]; exact hinv
      by_cases hrt : r.1 = rt
      · -- the record is replaced
        obtain ⟨hs1, hs2, hs3⟩ := record_size_bounds L hL
        have hcb : chain_bytes (kept C rt L (r :: rs)) =
            record_size L + chain_bytes (kept C rt L rs) := by
          simp only [kept, if_neg hinv, if_pos hrt, chain_bytes]; omega
        rw [reset_loop_replace C m page npa rt pe L f _ st hlt ht hi (by rw [h1]; exact hrt),
          hnext, hcb, h1]
        by_cases hov : st.next_space + record_size L > C.PAGE_SIZE
        · rw [if_pos hov, if_neg (by omega)]
        · rw [if_neg hov]
          have hih := ih (o + 4 * r.2) f
            { new_page := memcpy (memset (write16 (write16 st.new_page st.next_space
                  (u16 (record_size L / 4))) (st.next_space + 2) (u16 r.1))
                  (st.next_space + record_size L - 3) 255 3)
                  (st.next_space + HEADER_LEN) (fun i => m (pe + i)) L,
              next_space := st.next_space + record_size L,
              p_replace_position := npa + st.next_space,
              visited := st.visited ++ [page + o] }
            h6 (by omega) (by show st.next_space + record_size L ≤ C.PAGE_SIZE; omega)
          by_cases htot : st.next_space + (record_size L + chain_bytes (kept C rt L rs)) ≤
              C.PAGE_SIZE
          · rw [if_pos htot]
            rw [if_pos (by show st.next_space + record_size L + _ ≤ _; omega)] at hih
            obtain ⟨st', e1, e2, e3, e4, e5, e6⟩ := hih
            simp only at e2 e3 e4 e5 e6
            have hple := hC.page_le
            have hv1 : record_size L / 4 < 65536 := by omega
            refine ⟨st', e1, by rw [e2]; omega, ?_, ?_, ?_, e6.trans (hvis _)⟩
            · intro i hi
              rw [e3 i (by omega)]
              simp only [memcpy, memset, write16, HEADER_LEN]
              rw [if_neg (by omega), if_neg (by omega), if_neg (by omega), if_neg (by omega),
                if_neg (by omega), if_neg (by omega)]
            · intro i hi
              rw [e4 i hi]
              simp only [memcpy, memset, write16, HEADER_LEN]
              rw [if_neg (by omega), if_neg (by omega), if_neg (by omega), if_neg (by omega),
                if_neg (by omega), if_neg (by omega)]
            · intro hLr
              have hL1 : 1 ≤ L := by
                rcases hLr with h | h
                · exact h
                · exact absurd hrt (h r (List.mem_cons_self _ _) hinv)
              obtain ⟨hh1, hh2⟩ := replaced_header st.new_page (fun i => m (pe + i))
                st.next_space (record_size L) L (u16 (record_size L / 4)) (u16 r.1) (by omega)
                (Nat.mod_lt _ (by norm_num)) (Nat.mod_lt _ (by norm_num))
              simp only [kept, if_neg hinv, if_pos hrt]
              refine ⟨?_, ?_, by show 1 ≤ record_size L / 4; omega, h4, h5, ?_⟩
              · rw [hdr_type_congr _ st'.new_page st.next_space
                  (fun i _ hi2 => e3 i (by omega))]
                exact hh2.trans (u16_of_lt h5)
              · rw [hdr_len_congr _ st'.new_page st.next_space
                  (fun i _ hi2 => e3 i (by omega))]
                exact hh1.trans (u16_of_lt hv1)
              · have e : st.next_space + 4 * (record_size L / 4) =
                    st.next_space + record_size L := by omega
                show ChainTo C st'.new_page (kept C rt L rs)
                  (st.next_space + 4 * (record_size L / 4)) st'.next_space
                rw [e]
                exact e5 (hLr' hLr)
          · rw [if_neg htot]
            rw [if_neg (by show ¬ st.next_space + record_size L + _ ≤ _; omega)] at hih
            exact hih
      · -- the record is copied
        have hcb : chain_bytes (kept C rt L (r :: rs)) =
            4 * r.2 + chain_bytes (kept C rt L rs) := by
          simp only [kept, if_neg hinv, if_neg hrt, chain_bytes]
        rw [reset_loop_copy C m page npa rt pe L f _ st hlt ht hi (by rw [h1]; exact hrt),
          hnext, hcb, h2]
        by_cases hov : st.next_space + r.2 * 4 > C.PAGE_SIZE
        · rw [if_pos hov, if_neg (by omega)]
        · rw [if_neg hov]
          have hih := ih (o + 4 * r.2) f
            { st with
              new_page := memcpy st.new_page st.next_space (fun i => m (page + o + i)) (r.2 * 4),
              next_space := st.next_space + r.2 * 4,
              visited := st.visited ++ [page + o] }
            h6 (by omega) (by show st.next_space + r.2 * 4 ≤ C.PAGE_SIZE; omega)
          by_cases htot : st.next_space + (4 * r.2 + chain_bytes (kept C rt L rs)) ≤
              C.PAGE_SIZE
          · rw [if_pos htot]
            rw [if_pos (by show st.next_space + r.2 * 4 + _ ≤ _; omega)] at hih
            obtain ⟨st', e1, e2, e3, e4, e5, e6⟩ := hih
            simp only at e2 e3 e4 e5 e6
            have hcp : ∀ i, st.next_space ≤ i → i < st.next_space + 4 →
                st'.new_page i = view m page (o + (i - st.next_space)) := by
              intro i hi1 hi2
              rw [e3 i (by omega)]
              simp only [memcpy, view]
              rw [if_pos ⟨hi1, by omega⟩, Nat.add_assoc]
            refine ⟨st', e1, by rw [e2]; omega, ?_, ?_, ?_, e6.trans (hvis _)⟩
            · intro i hi
              rw [e3 i (by omega)]
              simp only [memcpy]
              rw [if_neg (by omega)]
            · intro i hi
              rw [e4 i hi]
              simp only [memcpy]
              rw [if_neg (by omega)]
            · intro hLr
              simp only [kept, if_neg hinv, if_neg hrt]
              refine ⟨?_, ?_, h3, h4, h5, ?_⟩
              · rw [← h1, ← hdr_type_view]
                simp only [hdr_type, read16]
                rw [hcp _ (by omega) (by omega), hcp _ (by omega) (by omega)]
                congr 3 <;> omega
              · rw [← h2, ← hdr_len_view]
                simp only [hdr_len, read16]
                rw [hcp _ (by omega) (by omega), hcp _ (by omega) (by omega)]
                congr 3 <;> omega
              · have e : st.next_space + 4 * r.2 = st.next_space + r.2 * 4 := by omega
                rw [e]
                exact e5 (hLr' hLr)
          · rw [if_neg htot]
            rw [if_neg (by show ¬ st.next_space + r.2 * 4 + _ ≤ _; omega)] at hih
            exact hih

/-- On a chain without invalidated records and without a record of the replaced type,
entered with `next_space` at the offset of the cursor, the compaction loop copies the
chain to the very same offsets of `new_page`. -/
theorem reset_loop_identity (C : Consts) (m : Mem) (page npa rt pe L F : Nat)
    (hw : page + C.PAGE_SIZE < 4294967296) (hF : F + 4 ≤ C.PAGE_SIZE)
    (hlast : hdr_type (view m page) F = C.BL_INFO_TYPE_LAST) :
    ∀ (rs : List (Nat × Nat)) (o fuel : Nat) (st : ResetLocals),
      ChainTo C (view m page) rs o F → rs.length < fuel →
      (∀ r ∈ rs, r.1 ≠ C.BL_INFO_TYPE_INVALID ∧ r.1 ≠ rt) → st.next_space = o →
      ∃ st', reset_loop C m page npa rt pe L fuel (page + o) st = .ok st' ∧
        st'.next_space = F ∧
        (∀ i, st'.new_page i = if o ≤ i ∧ i < F then view m page i else st.new_page i) ∧
        st'.p_replace_position = st.p_replace_position := by
  have hpg : u32 (page + C.PAGE_SIZE) = page + C.PAGE_SIZE := Nat.mod_eq_of_lt hw
  intro rs
  induction rs with
  | nil =>
    intro o fuel st hch hfuel _ hns
    obtain ⟨f, rfl⟩ : ∃ f, fuel = f + 1 := ⟨fuel - 1, by omega⟩
    have ho : o = F := hch
    subst ho
    rw [hdr_type_view] at hlast
    have hlt : page + o < u32 (page + C.PAGE_SIZE) := by rw [hpg]; omega
    refine ⟨_, reset_loop_last C m page npa rt pe L f _ st hlt hlast, hns, ?_, rfl⟩
    intro i
    rw [if_neg (by omega)]
  | cons r rs ih =>
    intro o fuel st hch hfuel hlive hns
    obtain ⟨f, rfl⟩ : ∃ f, fuel = f + 1 := ⟨fuel - 1, by omega⟩
    obtain ⟨h1, h2, h3, h4, h5, h6⟩ := hch
    rw [hdr_type_view] at h1
    rw [hdr_len_view] at h2
    have hend := ChainTo.end_eq h6
    simp only [List.length_cons] at hfuel
    have hnext : bootloader_info_iterate m (page + o) = page + (o + 4 * r.2) := by
      unfold bootloader_info_iterate u32
      rw [h2, Nat.mod_eq_of_lt (by omega)]; omega
    have hlt : page + o < u32 (page + C.PAGE_SIZE) := by rw [hpg]; omega
    have ht : hdr_type m (page + o) ≠ C.BL_INFO_TYPE_LAST := by rw [h1]; exact h4
    obtain ⟨hinv, hrt⟩ := hlive r (List.mem_cons_self _ _)
    rw [reset_loop_copy C m page npa rt pe L f _ st hlt ht (by rw [h1]; exact hinv)
      (by rw [h1]; exact hrt), hnext, h2, if_neg (by omega)]
    obtain ⟨st', e1, e2, e3, e4⟩ := ih (o + 4 * r.2) f
      { st with
        new_page := memcpy st.new_page st.next_space (fun i => m (page + o + i)) (r.2 * 4),
        next_space := st.next_space + r.2 * 4,
        visited := st.visited ++ [page + o] }
      h6 (by omega) (fun r' hr' => hlive r' (List.mem_cons_of_mem _ hr'))
      (by show st.next_space + r.2 * 4 = o + 4 * r.2; omega)
    refine ⟨st', e1, e2, ?_, e4⟩
    intro i
    rw [e3 i]
    simp only [memcpy, view]
    by_cases hi1 : o + 4 * r.2 ≤ i ∧ i < F
    · rw [if_pos hi1, if_pos ⟨by omega, hi1.2⟩]
    · rw [if_neg hi1]
      by_cases hi2 : st.next_space ≤ i ∧ i < st.next_space + r.2 * 4
      · rw [if_pos hi2, if_pos ⟨by omega, by omega⟩]
        congr 1; omega
      · rw [if_neg hi2, if_neg (by omega)]

theorem kept_live (C : Consts) (rt L : Nat) :
    ∀ (rs : List (Nat × Nat)), ∀ r ∈ kept C rt L rs, r.1 ≠ C.BL_INFO_TYPE_INVALID
  | [], r, hr => by simp [kept] at hr
  | r0 :: rs, r, hr => by
    simp only [kept] at hr
    by_cases hinv : r0.1 = C.BL_INFO_TYPE_INVALID
    · rw [if_pos hinv] at hr
      exact kept_live C rt L rs r hr
    · rw [if_neg hinv] at hr
      by_cases hrt : r0.1 = rt
      · rw [if_pos hrt] at hr
        rcases List.mem_cons.mp hr with e | e
        · rw [e]; exact hinv
        · exact kept_live C rt L rs r e
      · rw [if_neg hrt] at hr
        rcases List.mem_cons.mp hr with e | e
        · rw [e]; exact hinv
        · exact kept_live C rt L rs r e

theorem kept_length_le (C : Consts) (rt L : Nat) :
    ∀ (rs : List (Nat × Nat)), (kept C rt L rs).length ≤ rs.length
  | [] => by simp [kept]
  | r0 :: rs => by
    have := kept_length_le C rt L rs
    simp only [kept]
    split
    · simp only [List.length_cons]; omega
    · split <;> simp only [List.length_cons] <;> omega

/-- Without a live record of the replaced type the kept records are not larger than the
chain they are taken from. -/
theorem kept_bytes_le (C : Consts) (rt L : Nat) :
    ∀ (rs : List (Nat × Nat)), (∀ r ∈ rs, r.1 ≠ C.BL_INFO_TYPE_INVALID → r.1 ≠ rt) →
      chain_bytes (kept C rt L rs) ≤ chain_bytes rs
  | [], _ => by simp [kept]
  | r0 :: rs, h => by
    have ih := kept_bytes_le C rt L rs (fun r hr => h r (List.mem_cons_of_mem _ hr))
    simp only [kept]
    by_cases hinv : r0.1 = C.BL_INFO_TYPE_INVALID
    · rw [if_pos hinv]; simp only [chain_bytes]; omega
    · rw [if_neg hinv, if_neg (h r0 (List.mem_cons_self _ _) hinv)]
      simp only [chain_bytes]; omega

theorem chain_bytes_mod (rs : List (Nat × Nat)) : chain_bytes rs % 4 = 0 := by
  induction rs with
  | nil => rfl
  | cons r rs ih => simp only [chain_bytes]; omega

theorem Consts.Valid.page_mod {C : Consts} (hC : C.Valid) : C.PAGE_SIZE % 4 = 0 := by
  obtain ⟨k, hk⟩ := hC.page_pow
  have hge := hC.page_ge
  rw [hk] at hge ⊢
  have hk2 : 2 ≤ k := by
    by_contra hlt
    have : k ≤ 1 := by omega
    have : 2 ^ k ≤ 2 ^ 1 := Nat.pow_le_pow_right (by norm_num) this
    omega
  obtain ⟨j, rfl⟩ : ∃ j, k = j + 2 := ⟨k - 2, by omega⟩
  rw [pow_add]; omega


/-! ## The compaction as a whole -/

theorem reset_with_replace_ok (C : Consts) (fuel npa : Nat) (s : State) (rt pe L : Nat)
    (st : ResetLocals)
    (h : reset_loop C s.mem s.mp_bl_info_page npa rt pe L fuel
      (u32 (s.mp_bl_info_page + metadata_len s.mem s.mp_bl_info_page))
      (reset_locals_init C s) = .ok st) :
    reset_with_replace C fuel npa s rt pe L =
      .ok (compacted C s (reset_image C st), st.p_replace_position) := by
  unfold reset_with_replace
  simp only [reset_locals_init] at h
  simp only [h]
  rfl

theorem reset_with_replace_error (C : Consts) (fuel npa : Nat) (s : State) (rt pe L : Nat)
    (e : Fault)
    (h : reset_loop C s.mem s.mp_bl_info_page npa rt pe L fuel
      (u32 (s.mp_bl_info_page + metadata_len s.mem s.mp_bl_info_page))
      (reset_locals_init C s) = .error e) :
    reset_with_replace C fuel npa s rt pe L = .error (e, s) := by
  unfold reset_with_replace
  simp only [reset_locals_init] at h
  simp only [h]

theorem compacted_mem (C : Consts) (s : State) (image : Nat → Nat) (a : Nat) :
    (compacted C s image).mem a =
      if s.mp_bl_info_page ≤ a ∧ a < s.mp_bl_info_page + C.PAGE_SIZE then
        image (a - s.mp_bl_info_page)
      else if s.mp_bl_info_bank_page ≤ a ∧ a < s.mp_bl_info_bank_page + C.PAGE_SIZE then
        image (a - s.mp_bl_info_bank_page)
      else s.mem a := by
  simp only [compacted, nrf_flash_store, nrf_flash_erase]
  split_ifs <;> rfl

theorem compacted_page (C : Consts) (s : State) (image : Nat → Nat) :
    (compacted C s image).mp_bl_info_page = s.mp_bl_info_page := rfl

theorem compacted_bank (C : Consts) (s : State) (image : Nat → Nat) :
    (compacted C s image).mp_bl_info_bank_page = s.mp_bl_info_bank_page := rfl

theorem compacted_view (C : Consts) (s : State) (image : Nat → Nat) (i : Nat)
    (hi : i < C.PAGE_SIZE) :
    view (compacted C s image).mem s.mp_bl_info_page i = image i := by
  simp only [view, compacted_mem]
  rw [if_pos ⟨by omega, by omega⟩]
  congr 1; omega

theorem reset_locals_init_low (C : Consts) (s : State) (i : Nat)
    (hi : i < metadata_len s.mem s.mp_bl_info_page) :
    (reset_locals_init C s).new_page i = s.mem (s.mp_bl_info_page + i) := by
  simp only [reset_locals_init, memcpy]
  rw [if_pos ⟨by omega, by omega⟩]; rfl

theorem reset_locals_init_high (C : Consts) (s : State) (i : Nat)
    (hi : metadata_len s.mem s.mp_bl_info_page ≤ i) :
    (reset_locals_init C s).new_page i = if i < C.PAGE_SIZE then 255 else 0 := by
  simp only [reset_locals_init, memcpy, memset]
  rw [if_neg (by omega)]
  by_cases h : i < C.PAGE_SIZE
  · rw [if_pos ⟨by omega, by omega⟩, if_pos h]
  · rw [if_neg (by omega), if_neg h]

/-- Compaction of a well-formed page: the fatal error is raised exactly when the kept
records do not fit the page; otherwise the call returns, and `new_page` holds the
metadata, the kept records as a chain, and 0xFF behind them. -/
theorem reset_with_replace_wf (C : Consts) (hC : C.Valid) (s : State)
    (rs : List (Nat × Nat)) (F : Nat) (hwf : WellFormed C s rs F)
    (fuel : Nat) (hfuel : rs.length < fuel) (npa rt pe L : Nat) (hL : L + 8 ≤ 4294967296) :
    if metadata_len s.mem s.mp_bl_info_page + chain_bytes (kept C rt L rs) ≤ C.PAGE_SIZE then
      ∃ st, reset_with_replace C fuel npa s rt pe L =
          .ok (compacted C s (reset_image C st), st.p_replace_position) ∧
        st.next_space = metadata_len s.mem s.mp_bl_info_page + chain_bytes (kept C rt L rs) ∧
        (∀ i, i < metadata_len s.mem s.mp_bl_info_page →
          st.new_page i = s.mem (s.mp_bl_info_page + i)) ∧
        (∀ i, st.next_space ≤ i → st.new_page i = if i < C.PAGE_SIZE then 255 else 0) ∧
        ((1 ≤ L ∨ ∀ r ∈ rs, r.1 ≠ C.BL_INFO_TYPE_INVALID → r.1 ≠ rt) →
          ChainTo C st.new_page (kept C rt L rs) (metadata_len s.mem s.mp_bl_info_page)
            st.next_space)
    else reset_with_replace C fuel npa s rt pe L = .error (.app_error_internal, s) := by
  have hml : metadata_len s.mem s.mp_bl_info_page ≤ C.PAGE_SIZE := by
    have := ChainTo.end_eq hwf.chain
    have := hwf.inside
    omega
  have hu : u32 (s.mp_bl_info_page + metadata_len s.mem s.mp_bl_info_page) =
      s.mp_bl_info_page + metadata_len s.mem s.mp_bl_info_page :=
    Nat.mod_eq_of_lt (by have := hwf.no_wrap; omega)
  have key := reset_loop_chain C hC s.mem s.mp_bl_info_page npa rt pe L F hL hwf.no_wrap
    hwf.inside hwf.last rs (metadata_len s.mem s.mp_bl_info_page) fuel (reset_locals_init C s)
    hwf.chain hfuel hml
  have hns : (reset_locals_init C s).next_space = metadata_len s.mem s.mp_bl_info_page := rfl
  rw [hns] at key
  by_cases hfit : metadata_len s.mem s.mp_bl_info_page + chain_bytes (kept C rt L rs) ≤
      C.PAGE_SIZE
  · rw [if_pos hfit] at key ⊢
    obtain ⟨st, e1, e2, e3, e4, e5, _⟩ := key
    rw [← hu] at e1
    refine ⟨st, reset_with_replace_ok C fuel npa s rt pe L st e1, e2, ?_, ?_, ?_⟩
    · intro i hi
      rw [e3 i hi, reset_locals_init_low C s i hi]
    · intro i hi
      rw [e4 i hi, reset_locals_init_high C s i (by omega)]
    · exact e5
  · rw [if_neg hfit] at key ⊢
    rw [← hu] at key
    exact reset_with_replace_error C fuel npa s rt pe L _ key


theorem reset_image_of_lt (C : Consts) (st : ResetLocals) (h : st.next_space < C.PAGE_SIZE) :
    reset_image C st = write16 st.new_page (st.next_space + 2) (u16 C.BL_INFO_TYPE_LAST) := by
  unfold reset_image; rw [if_pos h]

theorem write16_other (b : Nat → Nat) (a v i : Nat) (h1 : i ≠ a) (h2 : i ≠ a + 1) :
    write16 b a v i = b i := by
  unfold write16; rw [if_neg h1, if_neg h2]

/-- The page that a compaction leaves is well formed again, with the kept records as its
chain, whenever the kept records end before the end of the page. -/
theorem compacted_wf (C : Consts) (hC : C.Valid) (s : State) (rs : List (Nat × Nat)) (F : Nat)
    (hwf : WellFormed C s rs F) (ks : List (Nat × Nat)) (st : ResetLocals)
    (hns : st.next_space = metadata_len s.mem s.mp_bl_info_page + chain_bytes ks)
    (hlow : ∀ i, i < metadata_len s.mem s.mp_bl_info_page →
      st.new_page i = s.mem (s.mp_bl_info_page + i))
    (hch : ChainTo C st.new_page ks (metadata_len s.mem s.mp_bl_info_page) st.next_space)
    (hroom : st.next_space < C.PAGE_SIZE) :
    WellFormed C (compacted C s (reset_image C st)) ks st.next_space := by
  have hmod := hC.page_mod
  have hcb := chain_bytes_mod ks
  have hml := hwf.ml_aligned
  have hge := hwf.ml_ge
  have hin : st.next_space + 4 ≤ C.PAGE_SIZE := by omega
  have himg : ∀ i, i < st.next_space →
      view (compacted C s (reset_image C st)).mem s.mp_bl_info_page i = st.new_page i := by
    intro i hi
    rw [compacted_view C s _ i (by omega), reset_image_of_lt C st hroom,
      write16_other _ _ _ _ (by omega) (by omega)]
  have h0 : metadata_len (compacted C s (reset_image C st)).mem s.mp_bl_info_page =
      metadata_len s.mem s.mp_bl_info_page := by
    have := himg 0 (by omega)
    simp only [view, Nat.add_zero] at this
    simp only [metadata_len]
    rw [this, hlow 0 (by omega)]; rfl
  refine ⟨hwf.no_wrap, ?_, ?_, ?_, ?_, ?_, hin⟩
  · rw [compacted_page, h0]; exact hml
  · rw [compacted_page, h0]; exact hge
  · rw [compacted_page]
    have := himg 1 (by omega)
    simp only [view] at this
    simp only [entry_header_length]
    rw [this, hlow 1 (by omega)]; exact hwf.ehl
  · rw [compacted_page, h0]
    exact ChainTo.congr (fun i _ h2 => himg i h2) hch
  · rw [compacted_page]
    have e : hdr_type (view (compacted C s (reset_image C st)).mem s.mp_bl_info_page)
        st.next_space = hdr_type (reset_image C st) st.next_space :=
      hdr_type_congr _ _ _ (fun i _ h2 => compacted_view C s _ i (by omega))
    rw [e, reset_image_of_lt C st hroom]
    simp only [hdr_type]
    rw [u16_of_lt hC.last_lt, read16_write16_hi _ _ _ hC.last_lt]

theorem bootloader_info_reset_of_ok (C : Consts) (fuel npa : Nat) (s s' : State) (r : Nat)
    (h : reset_with_replace C fuel npa s C.BL_INFO_TYPE_INVALID 0 0 = .ok (s', r)) :
    bootloader_info_reset C fuel npa s = .ok s' := by
  unfold bootloader_info_reset; rw [h]

/-- A reset of a well-formed page returns, and what it leaves in `new_page` is the
metadata, the live records as a chain that ends before the old LAST marker, and 0xFF. -/
theorem reset_wf (C : Consts) (hC : C.Valid) (s : State) (rs : List (Nat × Nat)) (F : Nat)
    (hwf : WellFormed C s rs F) (fuel : Nat) (hfuel : rs.length < fuel) (npa : Nat) :
    ∃ st, bootloader_info_reset C fuel npa s = .ok (compacted C s (reset_image C st)) ∧
      st.next_space = metadata_len s.mem s.mp_bl_info_page +
        chain_bytes (kept C C.BL_INFO_TYPE_INVALID 0 rs) ∧
      st.next_space ≤ F ∧
      (∀ i, i < metadata_len s.mem s.mp_bl_info_page →
        st.new_page i = s.mem (s.mp_bl_info_page + i)) ∧
      (∀ i, st.next_space ≤ i → st.new_page i = if i < C.PAGE_SIZE then 255 else 0) ∧
      ChainTo C st.new_page (kept C C.BL_INFO_TYPE_INVALID 0 rs)
        (metadata_len s.mem s.mp_bl_info_page) st.next_space := by
  have hle := kept_bytes_le C C.BL_INFO_TYPE_INVALID 0 rs (fun r _ h => h)
  have hend := ChainTo.end_eq hwf.chain
  have hin := hwf.inside
  have key := reset_with_replace_wf C hC s rs F hwf fuel hfuel npa C.BL_INFO_TYPE_INVALID 0 0
    (by norm_num)
  rw [if_pos (by omega)] at key
  obtain ⟨st, e1, e2, e3, e4, e5⟩ := key
  exact ⟨st, bootloader_info_reset_of_ok C fuel npa s _ _ e1, e2, by omega, e3, e4,
    e5 (Or.inr (fun r _ h => h))⟩

/-- C10 (idempotent reset): on a well-formed primary page a reset returns, a second reset
returns as well, and the second reset leaves every byte of memory, so both page images,
as the first one left it. -/
theorem reset_idempotent (C : Consts) (hC : C.Valid) (s : State) (rs : List (Nat × Nat))
    (F : Nat) (hwf : WellFormed C s rs F) (fuel₁ fuel₂ npa₁ npa₂ : Nat)
    (h₁ : rs.length < fuel₁) (h₂ : rs.length < fuel₂) :
    ∃ s1 s2, bootloader_info_reset C fuel₁ npa₁ s = .ok s1 ∧
      bootloader_info_reset C fuel₂ npa₂ s1 = .ok s2 ∧ ∀ a, s2.mem a = s1.mem a := by
  obtain ⟨st, e1, e2, e2', e3, e4, e5⟩ := reset_wf C hC s rs F hwf fuel₁ h₁ npa₁
  have hin := hwf.inside
  have hroom : st.next_space < C.PAGE_SIZE := by omega
  have hwf1 := compacted_wf C hC s rs F hwf _ st e2 e3 e5 hroom
  have hkl := kept_length_le C C.BL_INFO_TYPE_INVALID 0 rs
  -- the second pass copies every record to the offset it already has
  have hml1 : metadata_len (compacted C s (reset_image C st)).mem s.mp_bl_info_page =
      metadata_len s.mem s.mp_bl_info_page := by
    have := ChainTo.end_eq hwf1.chain
    rw [compacted_page] at this
    omega
  obtain ⟨st2, g1, g2, g3, _⟩ := reset_loop_identity C (compacted C s (reset_image C st)).mem
    s.mp_bl_info_page npa₂ C.BL_INFO_TYPE_INVALID 0 0 st.next_space hwf1.no_wrap hwf1.inside
    hwf1.last (kept C C.BL_INFO_TYPE_INVALID 0 rs)
    (metadata_len (compacted C s (reset_image C st)).mem s.mp_bl_info_page) fuel₂
    (reset_locals_init C (compacted C s (reset_image C st))) hwf1.chain (by omega)
    (fun r hr => ⟨kept_live C _ _ rs r hr, kept_live C _ _ rs r hr⟩) rfl
  have hu : u32 (s.mp_bl_info_page +
      metadata_len (compacted C s (reset_image C st)).mem s.mp_bl_info_page) =
      s.mp_bl_info_page +
        metadata_len (compacted C s (reset_image C st)).mem s.mp_bl_info_page :=
    Nat.mod_eq_of_lt (by have := hwf.no_wrap; have := hwf.ml_ge; rw [hml1]; omega)
  rw [← hu] at g1
  have e2nd := reset_with_replace_ok C fuel₂ npa₂ (compacted C s (reset_image C st))
    C.BL_INFO_TYPE_INVALID 0 0 st2 g1
  have himg : ∀ i, reset_image C st2 i = reset_image C st i := by
    intro i
    rw [reset_image_of_lt C st hroom, reset_image_of_lt C st2 (by rw [g2]; exact hroom), g2]
    by_cases hi : i = st.next_space + 2 ∨ i = st.next_space + 2 + 1
    · rcases hi with hi | hi <;> subst hi <;> simp [write16]
    · rw [write16_other _ _ _ _ (by omega) (by omega),
        write16_other _ _ _ _ (by omega) (by omega), g3 i, hml1]
      by_cases hmid : metadata_len s.mem s.mp_bl_info_page ≤ i ∧ i < st.next_space
      · rw [if_pos hmid, compacted_view C s _ i (by omega), reset_image_of_lt C st hroom,
          write16_other _ _ _ _ (by omega) (by omega)]
      · rw [if_neg hmid]
        by_cases hlo : i < metadata_len s.mem s.mp_bl_info_page
        · have := reset_locals_init_low C (compacted C s (reset_image C st)) i
            (by rw [compacted_page, hml1]; exact hlo)
          rw [compacted_page] at this
          rw [this]
          have hv := compacted_view C s (reset_image C st) i (by omega)
          simp only [view] at hv
          rw [hv, reset_image_of_lt C st hroom, write16_other _ _ _ _ (by omega) (by omega)]
        · have := reset_locals_init_high C (compacted C s (reset_image C st)) i
            (by rw [compacted_page, hml1]; omega)
          rw [this, e4 i (by omega)]
  refine ⟨_, _, e1, bootloader_info_reset_of_ok C fuel₂ npa₂ _ _ _ e2nd, ?_⟩
  intro a
  rw [compacted_mem, compacted_mem C s, compacted_page, compacted_bank]
  simp only [himg]
  split_ifs <;> rfl

/-! ## Concrete pages are well formed -/

set_option maxRecDepth 100000

theorem nRF51_valid : nRF51.Valid :=
  ⟨⟨10, rfl⟩, by decide, by decide, by decide, by decide, by decide⟩

theorem demo_full_wf : WellFormed nRF51 demo_full [(1, 2), (2, 250)] 1016 :=
  ⟨by decide, by decide, by decide, by decide,
    ⟨by decide, by decide, by decide, by decide, by decide,
      by decide, by decide, by decide, by decide, by decide,
      by show (_ : Nat) = _; decide⟩,
    by decide, by decide⟩

theorem demo_empty_wf : WellFormed nRF51 demo_empty [] 8 :=
  ⟨by decide, by decide, by decide, by decide, by show (_ : Nat) = _; decide, by decide,
    by decide⟩

/-! ## Claims settled by evaluation -/

/-- C2 (upsert through compaction), the code at a failing input: on a store without room
that holds no record of type 1, `put(1, 11 22 33 44, 4)` compacts (its first flash call
erases the bank page, four flash calls in all), returns the address 4, which is
`NULL` plus the entry-header length, and a `get(1)` afterwards returns `NULL`: the new
entry is not stored. -/
theorem put_compaction_drops_new_type :
    observe
      (bootloader_info_entry_put nRF51 1024 demo_stack (fun _ => 0) demo_full_other 1 demo_ram 4)
      (fun s => (s.log.length, s.log.head?, bootloader_info_entry_get nRF51 s demo_page 1)) =
    some (4, 4, some (FlashOp.erase demo_bank 1024), 0) := by
  decide

/-- C3 (returned address), the code at a failing input: on a store without room that
holds a record of type 1 at offset 8, `put(1, 11 22 33 44, 4)` compacts and returns the
address of byte 12 of the local array `new_page`, while a `get(1)` afterwards returns
byte 12 of the primary page. -/
theorem put_compaction_returns_stack_address :
    observe
      (bootloader_info_entry_put nRF51 1024 demo_stack (fun _ => 0) demo_full 1 demo_ram 4)
      (fun s => (s.log.head?, bootloader_info_entry_get nRF51 s demo_page 1)) =
    some (demo_stack + 8 + 4, some (FlashOp.erase demo_bank 1024), demo_page + 8 + 4) := by
  decide

/-- C4 (invalidation exclusivity), the code at a failing input: on an empty store,
`put(1, 11 22 33 44, 4)` followed by `put(1, AA BB CC DD EE, 5)` issues three stores and no
erase.  Afterwards the first header is INVALID and `get(1)` finds the second record at
offset 16, but that record has `len = 2` although it occupies 12 bytes: the header after
it is read at offset 24, its last word EE FF FF FF, of type 0xFFFF, and the LAST marker
stored at offset 28 is not reached, so find-free-space returns `NULL`. -/
theorem put_unaligned_hides_last_marker :
    observe
      ((bootloader_info_entry_put nRF51 1024 demo_stack (fun _ => 0) demo_empty 1
          demo_ram 4).bind
        (fun r => bootloader_info_entry_put nRF51 1024 demo_stack (fun _ => 0) r.1 1
          (demo_ram + 6) 5))
      (fun s => (s.log, [hdr_type s.mem (demo_page + 8),
        bootloader_info_entry_get nRF51 s demo_page 1,
        bootloader_info_iterate s.mem (demo_page + 16), hdr_type s.mem (demo_page + 24),
        hdr_type s.mem (demo_page + 28), bootloader_info_first_unused_get nRF51 s demo_page])) =
    some (demo_page + 20,
      [FlashOp.store (demo_page + 8) [2, 0, 1, 0, 17, 34, 51, 68, 255, 255, 255, 127],
       FlashOp.store (demo_page + 16)
        [2, 0, 1, 0, 170, 187, 204, 221, 238, 255, 255, 255, 255, 255, 255, 127],
       FlashOp.store (demo_page + 8) [2, 0, 0, 0]],
      [0, demo_page + 20, demo_page + 24, 65535, 32767, 0]) := by
  decide

/-- C5 (compaction preserves liveness), the code at a failing input: in a store without
room, `get(2)` finds the record of type 2 at offset 16; after `put(1, _, 0)`, which
compacts, `get(2)` returns `NULL`. -/
theorem put_compaction_empty_payload_loses_entry :
    bootloader_info_entry_get nRF51 demo_full demo_page 2 = demo_page + 16 + 4 ∧
    observe
      (bootloader_info_entry_put nRF51 1024 demo_stack (fun _ => 0) demo_full 1 demo_ram 0)
      (fun s => (s.log.head?, bootloader_info_entry_get nRF51 s demo_page 2)) =
    some (demo_stack + 8 + 4, some (FlashOp.erase demo_bank 1024), 0) := by
  decide

/-- C12 (fast-path record encoding), the code at a failing input: on an empty store,
`put(1, 11 22 33 44 01, 5)` stores 16 bytes at offset 8, a record of 12 bytes and the LAST
marker, with `len = 2` in the header: the header that follows the new one is computed at
offset 16, while the LAST marker is at offset 20. -/
theorem put_fast_path_length_rounds_down :
    observe
      (bootloader_info_entry_put nRF51 1024 demo_stack (fun _ => 0) demo_empty 1 demo_ram 5)
      (fun s => (s.log, record_size 5, hdr_len s.mem (demo_page + 8),
        bootloader_info_iterate s.mem (demo_page + 8), hdr_type s.mem (demo_page + 20))) =
    some (demo_page + 12,
      [FlashOp.store (demo_page + 8)
        [2, 0, 1, 0, 17, 34, 51, 68, 1, 255, 255, 255, 255, 255, 255, 127]],
      12, 2, demo_page + 16, 32767) := by
  decide

/-- C13 (compaction substitute encoding), the code at a failing input: in a store that
holds a record of type 1 at offset 8, `reset_with_replace(1, _, 0)` returns and leaves at
offset 8 the bytes 01 FF FF FF, a header of type 0xFFFF and length 0xFF01: the padding of
three bytes is written over the header. -/
theorem replace_empty_payload_overwrites_header :
    observe (reset_with_replace nRF51 1024 demo_stack demo_full 1 demo_ram 0)
      (fun s => ((List.range 4).map (fun i => s.mem (demo_page + 8 + i)),
        hdr_type s.mem (demo_page + 8), hdr_len s.mem (demo_page + 8))) =
    some (demo_stack + 8, [1, 255, 255, 255], 65535, 65281) := by
  decide

/-- C16 (scan stays inside the page), the code at a failing input: in a page whose only
record, at offset 8, is 254 words long, a `get(1)` reads the header at offset 8 and then
the header at offset 1024, the first address behind the page, before it returns
`NULL`. -/
theorem scan_reads_header_at_page_end :
    entry_get_reads nRF51 demo_edge.mem demo_page 1 (nRF51.PAGE_SIZE / 2 + 1)
        (u32 (demo_page + metadata_len demo_edge.mem demo_page)) 0 =
      some ([demo_page + 8, demo_page + nRF51.PAGE_SIZE], none) ∧
    bootloader_info_entry_get nRF51 demo_edge demo_page 1 = 0 := by
  decide

theorem ok_of_no_fault (r : Outcome (State × Nat)) (h : fault_of r = none) :
    r = .ok (state_of r, value_of r) := by
  cases r with
  | ok x => rfl
  | error e => simp [fault_of] at h

/-! ## Initialisation -/

theorem aligned_apart (n p b : Nat) (hp : n ∣ p) (hb : n ∣ b) (hne : p ≠ b) :
    p + n ≤ b ∨ b + n ≤ p := by
  obtain ⟨k, rfl⟩ := hp
  obtain ⟨j, rfl⟩ := hb
  rcases Nat.lt_trichotomy k j with h | h | h
  · left
    calc n * k + n = n * (k + 1) := by ring
      _ ≤ n * j := Nat.mul_le_mul_left n h
  · exact absurd (by rw [h]) hne
  · right
    calc n * j + n = n * (j + 1) := by ring
      _ ≤ n * k := Nat.mul_le_mul_left n h

/-- C9 (alignment rejection): if the primary or the bank address is not a multiple of the
page size, `bootloader_info_init` returns `NRF_ERROR_INVALID_ADDR` and leaves the whole
state, memory, flash driver log and page pointers, as it was; if both are multiples, every
value it returns is `NRF_SUCCESS`, which is not that error. -/
theorem init_alignment_rejection (C : Consts) (hC : C.Valid) (s : State) (p b : Nat) :
    ((¬ C.PAGE_SIZE ∣ p ∨ ¬ C.PAGE_SIZE ∣ b) →
      bootloader_info_init C s p b = .ok (s, NRF_ERROR_INVALID_ADDR)) ∧
    ((C.PAGE_SIZE ∣ p ∧ C.PAGE_SIZE ∣ b) → ∀ s' code,
      bootloader_info_init C s p b = .ok (s', code) →
        code = NRF_SUCCESS ∧ code ≠ NRF_ERROR_INVALID_ADDR) := by
  constructor
  · intro h
    have hcond : p &&& (C.PAGE_SIZE - 1) ≠ 0 ∨ b &&& (C.PAGE_SIZE - 1) ≠ 0 := by
      rcases h with h | h
      · exact Or.inl ((and_page_mask C hC p).mpr h)
      · exact Or.inr ((and_page_mask C hC b).mpr h)
    unfold bootloader_info_init
    rw [if_pos hcond]
  · intro h s' code hinit
    have hcond : ¬ (p &&& (C.PAGE_SIZE - 1) ≠ 0 ∨ b &&& (C.PAGE_SIZE - 1) ≠ 0) := by
      intro hc
      rcases hc with hc | hc
      · exact (and_page_mask C hC p).mp hc h.1
      · exact (and_page_mask C hC b).mp hc h.2
    unfold bootloader_info_init at hinit
    rw [if_neg hcond] at hinit
    dsimp only at hinit
    split_ifs at hinit
    · cases hinit
      exact ⟨rfl, by decide⟩
    · cases hinit
      exact ⟨rfl, by decide⟩

/-- Witness of `init_alignment_rejection`: a primary address four bytes past a page
boundary is rejected. -/
theorem init_alignment_rejection_witness :
    ¬ nRF51.PAGE_SIZE ∣ (demo_page + 4) ∧
      bootloader_info_init nRF51 demo_empty (demo_page + 4) demo_bank =
        .ok (demo_empty, NRF_ERROR_INVALID_ADDR) :=
  ⟨by decide,
    (init_alignment_rejection nRF51 nRF51_valid demo_empty (demo_page + 4) demo_bank).1
      (Or.inl (by decide))⟩

theorem find_record_none_iff (T : Nat) :
    ∀ (rs : List (Nat × Nat)) (o : Nat), find_record T rs o = none ↔ ∀ r ∈ rs, r.1 ≠ T
  | [], o => by simp [find_record]
  | r :: rs, o => by
    simp only [find_record]
    by_cases h : r.1 = T
    · rw [if_pos h]
      constructor
      · intro hc; cases hc
      · intro hc; exact absurd h (hc r (List.mem_cons_self _ _))
    · rw [if_neg h, find_record_none_iff T rs]
      constructor
      · intro hc r' hr'
        rcases List.mem_cons.mp hr' with e | e
        · rw [e]; exact h
        · exact hc r' e
      · intro hc r' hr'
        exact hc r' (List.mem_cons_of_mem _ hr')

theorem find_record_append (T : Nat) (r : Nat × Nat) (post : List (Nat × Nat)) (hr : r.1 = T)
    (pre : List (Nat × Nat)) (o : Nat) (h : ∀ r' ∈ pre, r'.1 ≠ T) :
    find_record T (pre ++ r :: post) o = some (o + chain_bytes pre) := by
  induction pre generalizing o with
  | nil => simp [find_record, hr, chain_bytes]
  | cons r0 pre ih =>
    rw [List.cons_append, find_record, if_neg (h r0 (List.mem_cons_self _ _)),
      ih _ (fun r' hr' => h r' (List.mem_cons_of_mem _ hr'))]
    simp only [chain_bytes]
    congr 1; omega

theorem ChainTo.type_at {C : Consts} {b : Nat → Nat} (r : Nat × Nat) (post : List (Nat × Nat))
    (pre : List (Nat × Nat)) (o q : Nat) (h : ChainTo C b (pre ++ r :: post) o q) :
    hdr_type b (o + chain_bytes pre) = r.1 := by
  induction pre generalizing o with
  | nil => simpa [chain_bytes] using h.1
  | cons r0 pre ih =>
    have := ih (o + 4 * r0.2) h.2.2.2.2.2
    simp only [chain_bytes]
    rw [← this]
    congr 1; omega

theorem find_record_bounds {C : Consts} {b : Nat → Nat} (T : Nat) :
    ∀ {rs : List (Nat × Nat)} {o q x : Nat}, ChainTo C b rs o q →
      find_record T rs o = some x → o ≤ x ∧ x + 4 ≤ q
  | [], o, q, x, _, h => by simp [find_record] at h
  | r :: rs, o, q, x, hch, h => by
    have hend := ChainTo.end_eq hch.2.2.2.2.2
    have hl := hch.2.2.1
    simp only [find_record] at h
    by_cases ht : r.1 = T
    · rw [if_pos ht] at h
      cases h
      omega
    · rw [if_neg ht] at h
      have := find_record_bounds T hch.2.2.2.2.2 h
      omega

theorem WellFormed.records_fit {C : Consts} {s : State} {rs : List (Nat × Nat)} {F : Nat}
    (hwf : WellFormed C s rs F) : 4 * rs.length + 4 ≤ C.PAGE_SIZE := by
  have h1 := ChainTo.length_le hwf.chain
  have h2 := ChainTo.end_eq hwf.chain
  have h3 := hwf.inside
  omega

/-- The scanner on a well-formed page, in terms of the chain of records. -/
theorem entry_get_wf (C : Consts) (s : State) (rs : List (Nat × Nat)) (F : Nat)
    (hwf : WellFormed C s rs F) (T : Nat) :
    bootloader_info_entry_get C s s.mp_bl_info_page T =
      match find_record T rs (metadata_len s.mem s.mp_bl_info_page) with
      | some x => s.mp_bl_info_page + x + HEADER_LEN
      | none => if T = C.BL_INFO_TYPE_LAST then s.mp_bl_info_page + F + HEADER_LEN else 0 := by
  have hlen := hwf.records_fit
  have hend := ChainTo.end_eq hwf.chain
  have hin := hwf.inside
  have hw := hwf.no_wrap
  have hu : u32 (s.mp_bl_info_page + metadata_len s.mem s.mp_bl_info_page) =
      s.mp_bl_info_page + metadata_len s.mem s.mp_bl_info_page :=
    Nat.mod_eq_of_lt (by omega)
  have key := entry_get_loop_chain C s.mem s.mp_bl_info_page T F hw hin hwf.last rs
    (metadata_len s.mem s.mp_bl_info_page) (C.PAGE_SIZE / 2 + 1) 0 hwf.chain (by omega)
    (by omega)
  unfold bootloader_info_entry_get
  rw [hu, key, hwf.ehl]
  cases hfind : find_record T rs (metadata_len s.mem s.mp_bl_info_page) with
  | some x =>
    have hb := find_record_bounds T hwf.chain hfind
    simp only [HEADER_LEN]
    exact Nat.mod_eq_of_lt (by omega)
  | none =>
    simp only
    by_cases ht : T = C.BL_INFO_TYPE_LAST
    · rw [if_pos ht, if_pos ht]
      simp only [HEADER_LEN]
      exact Nat.mod_eq_of_lt (by omega)
    · rw [if_neg ht, if_neg ht]

/-- C11 (lookup correctness): on a well-formed primary page, `get(T)` returns the address
behind the header of the first record of type `T` in chain order; if the chain holds no
record of type `T` it returns the address behind the LAST marker for `T = LAST` and
`NULL` otherwise; so it returns `NULL` exactly when `T` is not LAST and no record before
the LAST marker has type `T`, never because of the iteration cap.  The call is a function
of the state and has no effect on it. -/
theorem lookup_correct (C : Consts) (s : State) (rs : List (Nat × Nat)) (F : Nat)
    (hwf : WellFormed C s rs F) (T : Nat) :
    (∀ pre r post, rs = pre ++ r :: post → (∀ r' ∈ pre, r'.1 ≠ T) → r.1 = T →
      hdr_type s.mem
          (s.mp_bl_info_page + (metadata_len s.mem s.mp_bl_info_page + chain_bytes pre)) = T ∧
        bootloader_info_entry_get C s s.mp_bl_info_page T =
          s.mp_bl_info_page + (metadata_len s.mem s.mp_bl_info_page + chain_bytes pre) +
            entry_header_length s.mem s.mp_bl_info_page) ∧
    ((∀ r ∈ rs, r.1 ≠ T) →
      bootloader_info_entry_get C s s.mp_bl_info_page T =
        if T = C.BL_INFO_TYPE_LAST then
          s.mp_bl_info_page + F + entry_header_length s.mem s.mp_bl_info_page
        else 0) ∧
    (bootloader_info_entry_get C s s.mp_bl_info_page T = 0 ↔
      T ≠ C.BL_INFO_TYPE_LAST ∧ ∀ r ∈ rs, r.1 ≠ T) := by
  have hget := entry_get_wf C s rs F hwf T
  refine ⟨?_, ?_, ?_⟩
  · intro pre r post hrs hpre hr
    subst hrs
    rw [hget, find_record_append T r post hr pre _ hpre, hwf.ehl]
    refine ⟨?_, rfl⟩
    rw [← hdr_type_view, ChainTo.type_at r post pre _ _ hwf.chain, hr]
  · intro hnone
    rw [hget, (find_record_none_iff T rs _).mpr hnone, hwf.ehl]
  · rcases hfind : find_record T rs (metadata_len s.mem s.mp_bl_info_page) with _ | x
    · have hnone := (find_record_none_iff T rs _).mp hfind
      have e : bootloader_info_entry_get C s s.mp_bl_info_page T =
          if T = C.BL_INFO_TYPE_LAST then s.mp_bl_info_page + F + 4 else 0 := by
        rw [hget, hfind]; rfl
      rw [e]
      by_cases ht : T = C.BL_INFO_TYPE_LAST
      · rw [if_pos ht]
        constructor
        · intro h; omega
        · intro h; exact absurd ht h.1
      · rw [if_neg ht]
        exact ⟨fun _ => ⟨ht, hnone⟩, fun _ => rfl⟩
    · have e : bootloader_info_entry_get C s s.mp_bl_info_page T =
          s.mp_bl_info_page + x + 4 := by rw [hget, hfind]; rfl
      rw [e]
      constructor
      · intro h; omega
      · intro h
        have := (find_record_none_iff T rs (metadata_len s.mem s.mp_bl_info_page)).mpr h.2
        rw [hfind] at this
        cases this

/-- Witness of `lookup_correct`: in the store without room the record of type 2 is found
behind the record of type 1. -/
theorem lookup_correct_witness :
    WellFormed nRF51 demo_full [(1, 2), (2, 250)] 1016 ∧
      bootloader_info_entry_get nRF51 demo_full demo_full.mp_bl_info_page 2 =
        demo_full.mp_bl_info_page +
          (metadata_len demo_full.mem demo_full.mp_bl_info_page + chain_bytes [(1, 2)]) +
          entry_header_length demo_full.mem demo_full.mp_bl_info_page :=
  ⟨demo_full_wf,
    ((lookup_correct nRF51 demo_full [(1, 2), (2, 250)] 1016 demo_full_wf 2).1
      [(1, 2)] (2, 250) [] rfl (by decide) rfl).2⟩

/-! ## Claims about the compaction -/

theorem reset_with_replace_ok_inv (C : Consts) (fuel npa : Nat) (s : State) (rt pe L : Nat)
    (s' : State) (r : Nat) (h : reset_with_replace C fuel npa s rt pe L = .ok (s', r)) :
    ∃ st, reset_loop C s.mem s.mp_bl_info_page npa rt pe L fuel
        (u32 (s.mp_bl_info_page + metadata_len s.mem s.mp_bl_info_page))
        (reset_locals_init C s) = .ok st ∧
      s' = compacted C s (reset_image C st) ∧ r = st.p_replace_position := by
  cases hloop : reset_loop C s.mem s.mp_bl_info_page npa rt pe L fuel
      (u32 (s.mp_bl_info_page + metadata_len s.mem s.mp_bl_info_page))
      (reset_locals_init C s) with
  | error e =>
    rw [reset_with_replace_error C fuel npa s rt pe L e hloop] at h
    cases h
  | ok st =>
    rw [reset_with_replace_ok C fuel npa s rt pe L st hloop] at h
    cases h
    exact ⟨st, rfl, rfl, rfl⟩

theorem compacted_log (C : Consts) (s : State) (image : Nat → Nat) :
    (compacted C s image).log = s.log ++
      [FlashOp.erase s.mp_bl_info_bank_page C.PAGE_SIZE,
       FlashOp.store s.mp_bl_info_bank_page ((List.range C.PAGE_SIZE).map image),
       FlashOp.erase s.mp_bl_info_page C.PAGE_SIZE,
       FlashOp.store s.mp_bl_info_page ((List.range C.PAGE_SIZE).map image)] := by
  simp [compacted, nrf_flash_store, nrf_flash_erase]

/-- C14 (compaction write order): a compaction that returns has issued exactly four
flash driver calls, erase and store of the bank page and then erase and store of the
primary page, both stores with the same `PAGE_SIZE` bytes; after the first two calls
the bank page holds these bytes while a primary page that does not overlap the bank page
is still untouched, and for page-aligned addresses both pages hold these bytes on
return. -/
theorem compaction_write_order (C : Consts) (fuel npa : Nat) (s : State) (rt pe L : Nat)
    (s' : State) (r : Nat) (h : reset_with_replace C fuel npa s rt pe L = .ok (s', r)) :
    ∃ image : Nat → Nat,
      s'.log = s.log ++
        [FlashOp.erase s.mp_bl_info_bank_page C.PAGE_SIZE,
         FlashOp.store s.mp_bl_info_bank_page ((List.range C.PAGE_SIZE).map image),
         FlashOp.erase s.mp_bl_info_page C.PAGE_SIZE,
         FlashOp.store s.mp_bl_info_page ((List.range C.PAGE_SIZE).map image)] ∧
      (∀ i, i < C.PAGE_SIZE →
        (nrf_flash_store (nrf_flash_erase s s.mp_bl_info_bank_page C.PAGE_SIZE)
          s.mp_bl_info_bank_page image C.PAGE_SIZE).mem (s.mp_bl_info_bank_page + i) =
            image i) ∧
      (∀ a, ¬ (s.mp_bl_info_bank_page ≤ a ∧ a < s.mp_bl_info_bank_page + C.PAGE_SIZE) →
        (nrf_flash_store (nrf_flash_erase s s.mp_bl_info_bank_page C.PAGE_SIZE)
          s.mp_bl_info_bank_page image C.PAGE_SIZE).mem a = s.mem a) ∧
      (C.PAGE_SIZE ∣ s.mp_bl_info_page → C.PAGE_SIZE ∣ s.mp_bl_info_bank_page →
        ∀ i, i < C.PAGE_SIZE →
          s'.mem (s.mp_bl_info_page + i) = image i ∧
          s'.mem (s.mp_bl_info_bank_page + i) = image i) := by
  obtain ⟨st, _, hs, _⟩ := reset_with_replace_ok_inv C fuel npa s rt pe L s' r h
  subst hs
  refine ⟨reset_image C st, compacted_log C s _, ?_, ?_, ?_⟩
  · intro i hi
    simp only [nrf_flash_store, nrf_flash_erase]
    rw [if_pos ⟨by omega, by omega⟩]
    congr 1; omega
  · intro a ha
    simp only [nrf_flash_store, nrf_flash_erase]
    rw [if_neg ha, if_neg ha]
  · intro hp hb i hi
    have hv := compacted_view C s (reset_image C st) i hi
    simp only [view] at hv
    refine ⟨hv, ?_⟩
    by_cases hne : s.mp_bl_info_page = s.mp_bl_info_bank_page
    · rw [← hne]; exact hv
    · have hapart := aligned_apart C.PAGE_SIZE _ _ hp hb hne
      rw [compacted_mem, if_neg (by omega), if_pos ⟨by omega, by omega⟩]
      congr 1; omega

/-- Witness of `compaction_write_order`: the compaction of the store without room. -/
theorem compaction_write_order_witness :
    ∃ image : Nat → Nat,
      (state_of (reset_with_replace nRF51 1024 demo_stack demo_full 1 demo_ram 4)).log =
        demo_full.log ++
          [FlashOp.erase demo_full.mp_bl_info_bank_page nRF51.PAGE_SIZE,
           FlashOp.store demo_full.mp_bl_info_bank_page
             ((List.range nRF51.PAGE_SIZE).map image),
           FlashOp.erase demo_full.mp_bl_info_page nRF51.PAGE_SIZE,
           FlashOp.store demo_full.mp_bl_info_page
             ((List.range nRF51.PAGE_SIZE).map image)] :=
  match compaction_write_order nRF51 1024 demo_stack demo_full 1 demo_ram 4 _ _
      (ok_of_no_fault _ (by decide)) with
  | ⟨image, h, _⟩ => ⟨image, h⟩

/-- C18 (compaction overflow is fatal and atomic): on a well-formed primary page, with
enough fuel for the records of the page, `reset_with_replace` raises the fatal internal
error exactly when the metadata and the kept records, the record of the replaced type
counted with the size of the new record, exceed the page; it raises no other fault, and
the state in which it raises the error is the state in which it was called, so no flash
driver call has been issued. -/
theorem compaction_overflow_fatal (C : Consts) (hC : C.Valid) (s : State)
    (rs : List (Nat × Nat)) (F : Nat) (hwf : WellFormed C s rs F)
    (fuel : Nat) (hfuel : rs.length < fuel) (npa rt pe L : Nat) (hL : L + 8 ≤ 4294967296) :
    (reset_with_replace C fuel npa s rt pe L = .error (.app_error_internal, s) ↔
      C.PAGE_SIZE <
        metadata_len s.mem s.mp_bl_info_page + chain_bytes (kept C rt L rs)) ∧
    (∀ f s', reset_with_replace C fuel npa s rt pe L = .error (f, s') →
      f = .app_error_internal ∧ s' = s) := by
  have key := reset_with_replace_wf C hC s rs F hwf fuel hfuel npa rt pe L hL
  by_cases hfit : metadata_len s.mem s.mp_bl_info_page + chain_bytes (kept C rt L rs) ≤
      C.PAGE_SIZE
  · rw [if_pos hfit] at key
    obtain ⟨st, e1, _⟩ := key
    rw [e1]
    constructor
    · constructor
      · intro h; cases h
      · intro h; omega
    · intro f s' h; cases h
  · rw [if_neg hfit] at key
    rw [key]
    constructor
    · exact ⟨fun _ => by omega, fun _ => rfl⟩
    · intro f s' h
      cases h
      exact ⟨rfl, rfl⟩

/-- Witness of `compaction_overflow_fatal`: replacing the record of type 1 of the store
without room by a record with 100 payload bytes raises the error. -/
theorem compaction_overflow_fatal_witness :
    reset_with_replace nRF51 1024 demo_stack demo_full 1 demo_ram 100 =
      .error (.app_error_internal, demo_full) :=
  (compaction_overflow_fatal nRF51 nRF51_valid demo_full [(1, 2), (2, 250)] 1016 demo_full_wf
    1024 (by decide) demo_stack 1 demo_ram 100 (by decide)).1.mpr (by decide)

/-- Witness of `reset_idempotent`: two resets of the store without room. -/
theorem reset_idempotent_witness :
    ∃ s1 s2, bootloader_info_reset nRF51 1024 demo_stack demo_full = .ok s1 ∧
      bootloader_info_reset nRF51 1024 demo_stack s1 = .ok s2 ∧ ∀ a, s2.mem a = s1.mem a :=
  reset_idempotent nRF51 nRF51_valid demo_full [(1, 2), (2, 250)] 1016 demo_full_wf
    1024 1024 demo_stack demo_stack (by decide) (by decide)

theorem first_unused_get_wf (C : Consts) (s : State) (rs : List (Nat × Nat)) (F : Nat)
    (hwf : WellFormed C s rs F) :
    bootloader_info_entry_get C s s.mp_bl_info_page C.BL_INFO_TYPE_LAST =
        s.mp_bl_info_page + F + HEADER_LEN ∧
      bootloader_info_first_unused_get C s s.mp_bl_info_page =
        if s.mp_bl_info_page + F + HEADER_LEN = C.FLASH_SIZE then 0
        else s.mp_bl_info_page + F := by
  have hget : bootloader_info_entry_get C s s.mp_bl_info_page C.BL_INFO_TYPE_LAST =
      s.mp_bl_info_page + F + HEADER_LEN := by
    rw [entry_get_wf C s rs F hwf, find_record_last_none hwf.chain]
    simp
  refine ⟨hget, ?_⟩
  have hin := hwf.inside
  have hw := hwf.no_wrap
  unfold bootloader_info_first_unused_get bootloader_info_header_get
  simp only [hget, hwf.ehl, HEADER_LEN]
  rw [if_pos (by omega)]
  by_cases hfl : s.mp_bl_info_page + F + 4 = C.FLASH_SIZE
  · rw [if_pos (Or.inr hfl), if_pos hfl]
  · rw [if_neg (by omega), if_neg hfl]
    unfold u32
    omega

/-- C6 as amended (single terminator after compaction): on a well-formed primary page
with records `rs`, a compaction that returns, for a reset or for a `put` whose payload has
at least one byte or whose type has no live record, leaves in the primary page the kept
records as a chain from the end of the metadata.  If this chain ends before the end of
the page, the header right behind it is a LAST marker, the scan for LAST returns it, and
find-free-space returns its address unless its entry address equals `FLASH_SIZE`, in
which case it returns `NULL`.  Without a live record of the replaced type, so for every
reset, the chain ends at or before the old LAST marker, hence before the end of the
page. -/
theorem compaction_single_terminator (C : Consts) (hC : C.Valid) (s : State)
    (rs : List (Nat × Nat)) (F : Nat) (hwf : WellFormed C s rs F)
    (fuel : Nat) (hfuel : rs.length < fuel) (npa rt pe L : Nat) (hL : L + 8 ≤ 4294967296)
    (hLr : 1 ≤ L ∨ ∀ r ∈ rs, r.1 ≠ C.BL_INFO_TYPE_INVALID → r.1 ≠ rt)
    (s' : State) (ret : Nat) (hok : reset_with_replace C fuel npa s rt pe L = .ok (s', ret)) :
    s'.mp_bl_info_page = s.mp_bl_info_page ∧
    metadata_len s'.mem s.mp_bl_info_page = metadata_len s.mem s.mp_bl_info_page ∧
    ChainTo C (view s'.mem s.mp_bl_info_page) (kept C rt L rs)
      (metadata_len s.mem s.mp_bl_info_page)
      (metadata_len s.mem s.mp_bl_info_page + chain_bytes (kept C rt L rs)) ∧
    (metadata_len s.mem s.mp_bl_info_page + chain_bytes (kept C rt L rs) < C.PAGE_SIZE →
      hdr_type (view s'.mem s.mp_bl_info_page)
          (metadata_len s.mem s.mp_bl_info_page + chain_bytes (kept C rt L rs)) =
        C.BL_INFO_TYPE_LAST ∧
      bootloader_info_entry_get C s' s.mp_bl_info_page C.BL_INFO_TYPE_LAST =
        s.mp_bl_info_page +
          (metadata_len s.mem s.mp_bl_info_page + chain_bytes (kept C rt L rs)) +
          HEADER_LEN ∧
      bootloader_info_first_unused_get C s' s.mp_bl_info_page =
        if s.mp_bl_info_page +
            (metadata_len s.mem s.mp_bl_info_page + chain_bytes (kept C rt L rs)) +
            HEADER_LEN = C.FLASH_SIZE then 0
        else s.mp_bl_info_page +
          (metadata_len s.mem s.mp_bl_info_page + chain_bytes (kept C rt L rs))) ∧
    ((∀ r ∈ rs, r.1 ≠ C.BL_INFO_TYPE_INVALID → r.1 ≠ rt) →
      metadata_len s.mem s.mp_bl_info_page + chain_bytes (kept C rt L rs) ≤ F) := by
  have key := reset_with_replace_wf C hC s rs F hwf fuel hfuel npa rt pe L hL
  have hend := ChainTo.end_eq hwf.chain
  have hge := hwf.ml_ge
  by_cases hfit : metadata_len s.mem s.mp_bl_info_page + chain_bytes (kept C rt L rs) ≤
      C.PAGE_SIZE
  · rw [if_pos hfit, hok] at key
    obtain ⟨st, e1, e2, e3, e4, e5⟩ := key
    have hs : s' = compacted C s (reset_image C st) := by
      injection e1 with e1
      exact congrArg Prod.fst e1
    subst hs
    have hch := e5 hLr
    have himg : ∀ i, i < st.next_space →
        view (compacted C s (reset_image C st)).mem s.mp_bl_info_page i = st.new_page i := by
      intro i hi
      rw [compacted_view C s _ i (by omega)]
      unfold reset_image
      split
      · rw [write16_other _ _ _ _ (by omega) (by omega)]
      · rfl
    have hml : metadata_len (compacted C s (reset_image C st)).mem s.mp_bl_info_page =
        metadata_len s.mem s.mp_bl_info_page := by
      have := himg 0 (by omega)
      simp only [view, Nat.add_zero] at this
      simp only [metadata_len]
      rw [this, e3 0 (by omega)]; rfl
    refine ⟨rfl, hml, ?_, ?_, ?_⟩
    · rw [← e2]
      exact ChainTo.congr (fun i _ h2 => himg i h2) hch
    · intro hroom
      rw [← e2] at hroom ⊢
      have hwf1 := compacted_wf C hC s rs F hwf _ st e2 e3 hch hroom
      have := first_unused_get_wf C _ _ _ hwf1
      rw [compacted_page] at this
      exact ⟨by have := hwf1.last; rw [compacted_page] at this; exact this, this.1, this.2⟩
    · intro hnone
      have := kept_bytes_le C rt L rs hnone
      omega
  · rw [if_neg hfit, hok] at key
    cases key

/-- Witness of `compaction_single_terminator`: the compaction of the store without room
that replaces the record of type 1. -/
theorem compaction_single_terminator_witness :
    bootloader_info_first_unused_get nRF51
        (state_of (reset_with_replace nRF51 1024 demo_stack demo_full 1 demo_ram 4))
        demo_full.mp_bl_info_page =
      if demo_full.mp_bl_info_page +
          (metadata_len demo_full.mem demo_full.mp_bl_info_page +
            chain_bytes (kept nRF51 1 4 [(1, 2), (2, 250)])) + HEADER_LEN = nRF51.FLASH_SIZE
      then 0
      else demo_full.mp_bl_info_page +
        (metadata_len demo_full.mem demo_full.mp_bl_info_page +
          chain_bytes (kept nRF51 1 4 [(1, 2), (2, 250)])) :=
  ((compaction_single_terminator nRF51 nRF51_valid demo_full [(1, 2), (2, 250)] 1016
    demo_full_wf 1024 (by decide) demo_stack 1 demo_ram 4 (by decide) (Or.inl (by decide)) _ _
    (ok_of_no_fault _ (by decide))).2.2.2.1 (by decide)).2.2

/-- C6 as stated, refuted: in the store without room, `put(1, _, 12)` compacts and
returns; the rebuilt page holds the record of type 1 with 4 words at offset 8 and the
record of type 2 with 250 words at offset 24, which ends at the end of the page, and no
LAST marker: the scan for LAST and find-free-space return `NULL`. -/
theorem compaction_fills_page_without_terminator :
    observe
      (bootloader_info_entry_put nRF51 1024 demo_stack (fun _ => 0) demo_full 1 demo_ram 12)
      (fun s => (s.log.head?,
        [hdr_type s.mem (demo_page + 8), hdr_len s.mem (demo_page + 8),
         hdr_type s.mem (demo_page + 24), hdr_len s.mem (demo_page + 24),
         bootloader_info_entry_get nRF51 s demo_page nRF51.BL_INFO_TYPE_LAST,
         bootloader_info_first_unused_get nRF51 s demo_page])) =
    some (demo_stack + 8 + 4, some (FlashOp.erase demo_bank 1024), [1, 4, 2, 250, 0, 0]) := by
  decide

/-! ## Recovery after an interrupted compaction -/

/-- C19 (fast-path write fits in the page): for a page-aligned primary page that does
not reach the end of the address space, a word-aligned free-space address `F` inside or
behind the start of the page and a payload length `L` with
`F + 4 + L + 4 < page + PAGE_SIZE` (so `L < PAGE_SIZE`), the test of the fast path passes in 32-bit
arithmetic, the size computed for the record is `4 + L` rounded up to a multiple of 4,
the `record_size L + 4` bytes stored at `F` end at or before the end of the page, and
they are at most `PAGE_SIZE`, so all indices into `buffer` are in range. -/
theorem fast_path_fits (C : Consts) (hC : C.Valid) (page F L : Nat)
    (hp : C.PAGE_SIZE ∣ page) (hw : page + C.PAGE_SIZE < 4294967296)
    (hF : F % 4 = 0) (hge : page ≤ F)
    (htest : F + HEADER_LEN + L + 4 < page + C.PAGE_SIZE) :
    ¬ (u32 (F + HEADER_LEN + L + 4) ≥ u32 (page + C.PAGE_SIZE)) ∧
    record_size L = (L + 7) / 4 * 4 ∧
    F + (record_size L + 4) ≤ page + C.PAGE_SIZE ∧
    record_size L + 4 ≤ C.PAGE_SIZE ∧
    HEADER_LEN + L ≤ record_size L := by
  have hmod := hC.page_mod
  have hpm : page % 4 = 0 := by
    obtain ⟨k, rfl⟩ := hp
    have : 4 ∣ C.PAGE_SIZE := Nat.dvd_of_mod_eq_zero hmod
    exact Nat.mod_eq_zero_of_dvd (Dvd.dvd.mul_right this k)
  simp only [HEADER_LEN] at htest ⊢
  have hrs := record_size_eq L (by omega)
  refine ⟨?_, hrs, ?_, ?_, ?_⟩
  · unfold u32
    rw [Nat.mod_eq_of_lt (by omega), Nat.mod_eq_of_lt hw]
    omega
  · rw [hrs]; omega
  · rw [hrs]; omega
  · rw [hrs]; omega

/-- Witness of `fast_path_fits`: a payload of 5 bytes behind the metadata of the empty
store. -/
theorem fast_path_fits_witness :
    demo_page + 8 + (record_size 5 + 4) ≤ demo_page + nRF51.PAGE_SIZE :=
  (fast_path_fits nRF51 nRF51_valid demo_page (demo_page + 8) 5 (by decide) (by decide)
    (by decide) (by decide) (by decide)).2.2.1

/-! ## The compaction loop on a page that the scanner accepts -/

theorem entry_get_loop_stuck (C : Consts) (m : Mem) (page T p : Nat)
    (ht : hdr_type m p ≠ T) (hit : bootloader_info_iterate m p = p) :
    ∀ (fuel it : Nat), entry_get_loop C m page T fuel p it = none := by
  intro fuel
  induction fuel with
  | zero => intro it; rfl
  | succ f ih =>
    intro it
    rw [entry_get_loop]
    dsimp only
    rw [if_pos ht, hit]
    split
    · rfl
    · exact ih _

theorem hdr_lt_of_bytes (m : Mem) (hbytes : ∀ a, m a < 256) (p : Nat) :
    hdr_len m p < 65536 ∧ hdr_type m p < 65536 := by
  have h0 := hbytes p
  have h1 := hbytes (p + 1)
  have h2 := hbytes (p + 2)
  have h3 := hbytes (p + 2 + 1)
  simp only [hdr_len, hdr_type, read16]
  omega

/-- A successful scan for LAST that ends inside the page has walked a chain of records
to the LAST marker. -/
theorem scan_success_chain (C : Consts) (m : Mem) (page : Nat) (hbytes : ∀ a, m a < 256)
    (hw : page + C.PAGE_SIZE + 262144 ≤ 4294967296) :
    ∀ (fuel o it Fp : Nat), o ≤ C.PAGE_SIZE →
      entry_get_loop C m page C.BL_INFO_TYPE_LAST fuel (page + o) it = some Fp →
      ∃ rs F, Fp = page + F ∧ ChainTo C (view m page) rs o F ∧
        hdr_type (view m page) F = C.BL_INFO_TYPE_LAST := by
  have hpg : u32 (page + C.PAGE_SIZE) = page + C.PAGE_SIZE := Nat.mod_eq_of_lt (by omega)
  intro fuel
  induction fuel with
  | zero => intro o it Fp _ h; simp [entry_get_loop] at h
  | succ f ih =>
    intro o it Fp ho h
    rw [entry_get_loop] at h
    dsimp only at h
    by_cases ht : hdr_type m (page + o) = C.BL_INFO_TYPE_LAST
    · rw [if_neg (not_not.mpr ht)] at h
      cases h
      exact ⟨[], o, rfl, rfl, by rw [hdr_type_view]; exact ht⟩
    · rw [if_pos ht] at h
      obtain ⟨hl, hty⟩ := hdr_lt_of_bytes m hbytes (page + o)
      have hnext : bootloader_info_iterate m (page + o) =
          page + (o + 4 * hdr_len m (page + o)) := by
        unfold bootloader_info_iterate u32
        rw [Nat.mod_eq_of_lt (by omega)]; omega
      split at h
      · cases h
      · rename_i hc
        rw [hpg, hnext] at hc
        have hpos : 1 ≤ hdr_len m (page + o) := by
          by_contra hzero
          have hz : hdr_len m (page + o) = 0 := by omega
          have hstay : bootloader_info_iterate m (page + o) = page + o := by
            rw [hnext, hz]; rfl
          rw [hstay, entry_get_loop_stuck C m page _ _ ht hstay] at h
          cases h
        rw [hnext] at h
        obtain ⟨rs, F, e1, e2, e3⟩ := ih (o + 4 * hdr_len m (page + o)) (it + 1) Fp
          (by
            by_contra hgt
            exact hc (Or.inl (by omega))) h
        refine ⟨(hdr_type m (page + o), hdr_len m (page + o)) :: rs, F, e1, ?_, e3⟩
        exact ⟨hdr_type_view m page o, hdr_len_view m page o, hpos, ht, hty, e2⟩

theorem entry_get_reads_chain (C : Consts) (m : Mem) (page F : Nat)
    (hw : page + C.PAGE_SIZE < 4294967296) (hF : F + 4 ≤ C.PAGE_SIZE)
    (hlast : hdr_type (view m page) F = C.BL_INFO_TYPE_LAST) :
    ∀ (rs : List (Nat × Nat)) (o fuel it : Nat), ChainTo C (view m page) rs o F →
      rs.length < fuel → it + rs.length ≤ C.PAGE_SIZE / 2 →
      entry_get_reads C m page C.BL_INFO_TYPE_LAST fuel (page + o) it =
        some ((chain_offsets rs o).map (fun x => page + x), some (page + F)) := by
  intro rs
  induction rs with
  | nil =>
    intro o fuel it hch hfuel _
    obtain ⟨f, rfl⟩ : ∃ f, fuel = f + 1 := ⟨fuel - 1, by omega⟩
    have ho : o = F := hch
    subst ho
    rw [hdr_type_view] at hlast
    rw [entry_get_reads]
    dsimp only
    rw [if_neg (not_not.mpr hlast)]
    rfl
  | cons r rs ih =>
    intro o fuel it hch hfuel hit
    obtain ⟨f, rfl⟩ : ∃ f, fuel = f + 1 := ⟨fuel - 1, by omega⟩
    obtain ⟨h1, h2, h3, h4, _, h6⟩ := hch
    rw [hdr_type_view] at h1
    rw [hdr_len_view] at h2
    have hend := ChainTo.end_eq h6
    simp only [List.length_cons] at hfuel hit
    have hnext : bootloader_info_iterate m (page + o) = page + (o + 4 * r.2) := by
      unfold bootloader_info_iterate u32
      rw [h2, Nat.mod_eq_of_lt (by omega)]; omega
    have hpg : u32 (page + C.PAGE_SIZE) = page + C.PAGE_SIZE := Nat.mod_eq_of_lt hw
    have ht : hdr_type m (page + o) ≠ C.BL_INFO_TYPE_LAST := by rw [h1]; exact h4
    have hcond : ¬ (bootloader_info_iterate m (page + o) > u32 (page + C.PAGE_SIZE) ∨
        (hdr_type m (page + o) = C.BL_INFO_TYPE_LAST ∧
          hdr_type m (page + o) ≠ C.BL_INFO_TYPE_LAST) ∨ it + 1 > C.PAGE_SIZE / 2) := by
      rw [hnext, hpg]
      intro hc
      rcases hc with hc | hc | hc
      · omega
      · exact ht hc.1
      · omega
    rw [entry_get_reads]
    dsimp only
    rw [if_pos ht, if_neg hcond, hnext, ih (o + 4 * r.2) f (it + 1) h6 (by omega) (by omega)]
    rfl

theorem chain_offsets_length (rs : List (Nat × Nat)) (o : Nat) :
    (chain_offsets rs o).length = rs.length + 1 := by
  induction rs generalizing o with
  | nil => rfl
  | cons r rs ih => simp [chain_offsets, ih]

theorem chain_offsets_getLast (f : Nat → Nat) (rs : List (Nat × Nat)) (o : Nat) :
    ((chain_offsets rs o).map f).getLast? = some (f (o + chain_bytes rs)) := by
  induction rs generalizing o with
  | nil => rfl
  | cons r rs ih =>
    have := ih (o + 4 * r.2)
    cases rs with
    | nil => simp [chain_offsets, chain_bytes]
    | cons r' rs' =>
      simp only [chain_offsets, List.map_cons, List.getLast?_cons_cons, chain_bytes] at this ⊢
      rw [this]
      congr 2; omega

theorem chain_offsets_len_pos {C : Consts} {b : Nat → Nat} :
    ∀ {rs : List (Nat × Nat)} {o q : Nat}, ChainTo C b rs o q →
      ∀ x ∈ chain_offsets rs o, x ≠ q → 1 ≤ hdr_len b x
  | [], o, q, h, x, hx, hne => by
    simp only [chain_offsets, List.mem_singleton] at hx
    have : o = q := h
    omega
  | r :: rs, o, q, h, x, hx, hne => by
    simp only [chain_offsets, List.mem_cons] at hx
    rcases hx with e | e
    · rw [e, h.2.1]; exact h.2.2.1
    · exact chain_offsets_len_pos h.2.2.2.2.2 x e hne

/-- C20 as amended (the compaction loop terminates on a page that the scanner accepts):
let memory consist of bytes, let the page lie 256 kB below the end of the address space,
and let the scan for LAST return a header `Fp` that lies inside the page.  Then every
header that the scan reads before `Fp` is at least one word long, and the loop of
`reset_with_replace`, given fuel for these headers, terminates: either it raises the
fatal overflow error, or it stops having read exactly the headers that the scan read,
the last of them `Fp`.  For `bootloader_info_reset` it always does the latter. -/
theorem compaction_scan_terminates (C : Consts) (hC : C.Valid) (s : State)
    (hbytes : ∀ a, s.mem a < 256)
    (hw : s.mp_bl_info_page + C.PAGE_SIZE + 262144 ≤ 4294967296) (Fp : Nat)
    (hscan : entry_get_loop C s.mem s.mp_bl_info_page C.BL_INFO_TYPE_LAST
      (C.PAGE_SIZE / 2 + 1) (u32 (s.mp_bl_info_page + metadata_len s.mem s.mp_bl_info_page))
      0 = some Fp)
    (hin : Fp + 4 ≤ s.mp_bl_info_page + C.PAGE_SIZE) :
    ∃ reads,
      entry_get_reads C s.mem s.mp_bl_info_page C.BL_INFO_TYPE_LAST (C.PAGE_SIZE / 2 + 1)
        (u32 (s.mp_bl_info_page + metadata_len s.mem s.mp_bl_info_page)) 0 =
          some (reads, some Fp) ∧
      reads.getLast? = some Fp ∧
      (∀ h ∈ reads, h ≠ Fp → 1 ≤ hdr_len s.mem h) ∧
      (∀ (fuel npa rt pe L : Nat) (st0 : ResetLocals), reads.length ≤ fuel →
        L + 8 ≤ 4294967296 → st0.next_space ≤ C.PAGE_SIZE →
        reset_loop C s.mem s.mp_bl_info_page npa rt pe L fuel
            (u32 (s.mp_bl_info_page + metadata_len s.mem s.mp_bl_info_page)) st0 =
          .error .app_error_internal ∨
        ∃ st', reset_loop C s.mem s.mp_bl_info_page npa rt pe L fuel
            (u32 (s.mp_bl_info_page + metadata_len s.mem s.mp_bl_info_page)) st0 = .ok st' ∧
          st'.visited = st0.visited ++ reads) ∧
      (∀ (fuel npa : Nat), reads.length ≤ fuel →
        ∃ st', reset_loop C s.mem s.mp_bl_info_page npa C.BL_INFO_TYPE_INVALID 0 0 fuel
            (u32 (s.mp_bl_info_page + metadata_len s.mem s.mp_bl_info_page))
            (reset_locals_init C s) = .ok st' ∧
          st'.visited = reads) := by
  have hml : metadata_len s.mem s.mp_bl_info_page < 256 := hbytes _
  have hge := hC.page_ge
  have hu : u32 (s.mp_bl_info_page + metadata_len s.mem s.mp_bl_info_page) =
      s.mp_bl_info_page + metadata_len s.mem s.mp_bl_info_page :=
    Nat.mod_eq_of_lt (by omega)
  rw [hu] at hscan ⊢
  obtain ⟨rs, F, e1, hch, hlast⟩ := scan_success_chain C s.mem s.mp_bl_info_page hbytes hw
    _ _ _ Fp (by omega) hscan
  subst e1
  have hF : F + 4 ≤ C.PAGE_SIZE := by omega
  have hnw : s.mp_bl_info_page + C.PAGE_SIZE < 4294967296 := by omega
  have hlen := ChainTo.length_le hch
  have hend := ChainTo.end_eq hch
  refine ⟨(chain_offsets rs (metadata_len s.mem s.mp_bl_info_page)).map
    (fun x => s.mp_bl_info_page + x), ?_, ?_, ?_, ?_, ?_⟩
  · exact entry_get_reads_chain C s.mem s.mp_bl_info_page F hnw hF hlast rs _ _ 0 hch
      (by omega) (by omega)
  · rw [chain_offsets_getLast, hend]
  · intro h hh hne
    obtain ⟨x, hx, rfl⟩ := List.mem_map.mp hh
    have := chain_offsets_len_pos hch x hx (by intro e; exact hne (by rw [e]))
    rw [hdr_len_view] at this
    exact this
  · intro fuel npa rt pe L st0 hfuel hL hns
    rw [List.length_map, chain_offsets_length] at hfuel
    have key := reset_loop_chain C hC s.mem s.mp_bl_info_page npa rt pe L F hL hnw hF hlast
      rs _ fuel st0 hch (by omega) hns
    split at key
    · obtain ⟨st', k1, _, _, _, _, k6⟩ := key
      exact Or.inr ⟨st', k1, k6⟩
    · exact Or.inl key
  · intro fuel npa hfuel
    rw [List.length_map, chain_offsets_length] at hfuel
    have key := reset_loop_chain C hC s.mem s.mp_bl_info_page npa C.BL_INFO_TYPE_INVALID 0 0
      F (by norm_num) hnw hF hlast rs _ fuel (reset_locals_init C s) hch (by omega)
      (by show metadata_len s.mem s.mp_bl_info_page ≤ C.PAGE_SIZE; omega)
    have hle := kept_bytes_le C C.BL_INFO_TYPE_INVALID 0 rs (fun r _ h => h)
    rw [if_pos (by show metadata_len s.mem s.mp_bl_info_page + _ ≤ _; omega)] at key
    obtain ⟨st', k1, _, _, _, _, k6⟩ := key
    exact ⟨st', k1, by simpa [reset_locals_init] using k6⟩

theorem load_lt (m : Mem) (a : Nat) (bs : List Nat) (hm : ∀ x, m x < 256)
    (hbs : ∀ b ∈ bs, b < 256) : ∀ x, load m a bs x < 256 := by
  intro x
  unfold load
  split
  · rename_i h
    rw [List.getD_eq_getElem _ _ (by omega)]
    exact hbs _ (List.getElem_mem _)
  · exact hm x

theorem demo_full_bytes : ∀ a, demo_full.mem a < 256 := by
  unfold demo_full demo_state demo_erased
  apply load_lt
  · apply load_lt
    · apply load_lt
      · intro _; decide
      · decide
    · decide
  · decide

/-- Witness of `compaction_scan_terminates`: the store without room, whose LAST marker is
at offset 1016. -/
theorem compaction_scan_terminates_witness :
    ∃ reads,
      entry_get_reads nRF51 demo_full.mem demo_full.mp_bl_info_page nRF51.BL_INFO_TYPE_LAST
        (nRF51.PAGE_SIZE / 2 + 1)
        (u32 (demo_full.mp_bl_info_page + metadata_len demo_full.mem demo_full.mp_bl_info_page))
        0 = some (reads, some (demo_page + 1016)) ∧
      reads.getLast? = some (demo_page + 1016) :=
  match compaction_scan_terminates nRF51 nRF51_valid demo_full demo_full_bytes (by decide)
      (demo_page + 1016) (by decide) (by decide) with
  | ⟨reads, h1, h2, _⟩ => ⟨reads, h1, h2⟩

/-- C20 as stated, refuted: in the store without room find-free-space succeeds, with the
LAST marker at offset 1016 inside the page, but `reset_with_replace(1, _, 100)` raises the
fatal internal error at the first record: its loop does not stop at the LAST marker. -/
theorem compaction_loop_stops_at_overflow :
    bootloader_info_first_unused_get nRF51 demo_full demo_page = demo_page + 1016 ∧
      fault_of (reset_with_replace nRF51 1024 demo_stack demo_full 1 demo_ram 100) =
        some Fault.app_error_internal := by
  decide

/-! ## The fast path of `bootloader_info_entry_put` -/

end BootloaderInfo
